import Mathlib

set_option autoImplicit false

/-
Verification of the plan-executor core of the jira-ai-agent repository
(src/agents/admin_validator.py), as a shallow embedding in Lean.

Python strings are modelled as `List Char`; Python/JSON values as the
mutual inductive `Val`/`Fields`/`Elems` (a JSON-like tree whose mappings
keep insertion order, like Python dicts).  Fallible Python code (the
`try`/`except` in `UnrestrictedJiraAgent.process`) is modelled with
`Except`.  The external HTTP exchange performed by `requests` is an
oracle (`TransportOutcome`): either a completed response or a raised
exception carrying its message.

Conventions:
  * Since a Python f-string renders step numbers in decimal, decimal
    rendering is modelled by the executable `natToChars` (fuel-based so
    that it reduces definitionally).
  * Python `str.strip` strips the ASCII whitespace characters here
    (Python additionally strips other Unicode whitespace; no claim
    depends on those).
  * Exception messages carried by `Except.error` stand for Python's
    `str(e)`; their exact wording is not part of any claim.
-/

/-- The six whitespace characters stripped by Python's `str.strip()`
(restricted to ASCII). -/
def pySpace (c : Char) : Bool :=
  c = ' ' || c = '\t' || c = '\n' || c = '\r' || c = '\x0b' || c = '\x0c'

/-- Python `value.strip()`: drop leading and trailing whitespace. -/
def pyStrip (s : List Char) : List Char :=
  ((s.dropWhile pySpace).reverse.dropWhile pySpace).reverse

/-- Python's substring test `p in s`. -/
def isSubstr (p s : List Char) : Bool :=
  s.tails.any (fun t => p.isPrefixOf t)

/-- Helper for `replaceSub`; the fuel argument (one unit per character of
the subject string) only serves structural termination, so that the
function reduces definitionally. -/
def replaceSubFuel (p r : List Char) : Nat → List Char → List Char
  | _, [] => []
  | 0, s => s
  | fuel+1, c :: rest =>
    if 0 < p.length ∧ p.isPrefixOf (c :: rest) then
      r ++ replaceSubFuel p r fuel ((c :: rest).drop p.length)
    else
      c :: replaceSubFuel p r fuel rest

/-- Python `s.replace(p, r)` for a non-empty pattern `p`: replace the
non-overlapping occurrences of `p` in `s`, scanning left to right.
(For `p = []` this returns `s` unchanged; the program only ever calls it
with a `\x7b\x7bkey\x7d\x7d` placeholder, which is non-empty.) -/
def replaceSub (p r s : List Char) : List Char :=
  replaceSubFuel p r s.length s

/-- Specification-side companion of `replaceSub`: Python `s.split(p)`,
the segments of `s` between the non-overlapping occurrences of `p`. -/
def splitSubFuel (p : List Char) : Nat → List Char → List (List Char)
  | _, [] => [[]]
  | 0, s => [s]
  | fuel+1, c :: rest =>
    if 0 < p.length ∧ p.isPrefixOf (c :: rest) then
      [] :: splitSubFuel p fuel ((c :: rest).drop p.length)
    else
      match splitSubFuel p fuel rest with
      | [] => [[c]]
      | h :: t => (c :: h) :: t

/-- Python `s.split(p)` for non-empty `p`. -/
def splitSub (p s : List Char) : List (List Char) :=
  splitSubFuel p s.length s

/-- `joinWith sep parts` is Python `sep.join(parts)`. -/
def joinWith (sep : List Char) : List (List Char) → List Char
  | [] => []
  | [x] => x
  | x :: xs => x ++ sep ++ joinWith sep xs

/-- Helper for `natToChars`; fuel-based for definitional reduction. -/
def natToCharsFuel : Nat → Nat → List Char
  | 0, _ => []
  | fuel+1, n =>
    if n < 10 then [Nat.digitChar n]
    else natToCharsFuel fuel (n / 10) ++ [Nat.digitChar (n % 10)]

/-- Decimal rendering of a natural number, as produced by Python's
`str`/f-strings. -/
def natToChars (n : Nat) : List Char :=
  natToCharsFuel (n + 1) n

/-- Python `str` of an integer. -/
def intToChars (n : Int) : List Char :=
  if n < 0 then '-' :: natToChars n.natAbs else natToChars n.toNat

/- JSON-like values as handled by the agent: the payloads, response
bodies and plan fragments that flow through
`UnrestrictedJiraAgent.process`.  `Fields` is a mapping in insertion
order (a Python dict), `Elems` a sequence (a Python list). -/
mutual
inductive Val where
  | str (s : List Char)
  | int (n : Int)
  | bool (b : Bool)
  | null
  | dict (fields : Fields)
  | list (elems : Elems)
inductive Fields where
  | nil
  | cons (key : List Char) (val : Val) (rest : Fields)
inductive Elems where
  | nil
  | cons (val : Val) (rest : Elems)
end

instance : Inhabited Val := ⟨Val.null⟩

instance : Inhabited Fields := ⟨Fields.nil⟩

instance : Inhabited Elems := ⟨Elems.nil⟩

/-- Python truthiness of a value (`if value:`). -/
def truthy : Val → Bool
  | .str s => !s.isEmpty
  | .int n => n ≠ 0
  | .bool b => b
  | .null => false
  | .dict .nil => false
  | .dict (.cons _ _ _) => true
  | .list .nil => false
  | .list (.cons _ _) => true

/-- First binding of `key` in a mapping (Python dicts hold each key once,
so first is the only one). -/
def Fields.lookup : Fields → List Char → Option Val
  | .nil, _ => none
  | .cons k v rest, key => if k = key then some v else rest.lookup key

/-- Python `key in d` for a dict `d`. -/
def Fields.hasKey : Fields → List Char → Bool
  | .nil, _ => false
  | .cons k _ rest, key => k = key || rest.hasKey key

/-- The keys of a mapping, in order. -/
def Fields.keys : Fields → List (List Char)
  | .nil => []
  | .cons k _ rest => k :: rest.keys

/-- Number of entries of a mapping. -/
def Fields.size : Fields → Nat
  | .nil => 0
  | .cons _ _ rest => rest.size + 1

/-- Number of elements of a sequence. -/
def Elems.size : Elems → Nat
  | .nil => 0
  | .cons _ rest => rest.size + 1

/-- Python `x in l` for a list `l` and a string `x`: element-wise
equality (a non-string element never equals a string). -/
def Elems.hasStrElem : Elems → List Char → Bool
  | .nil, _ => false
  | .cons (.str s) rest, x => s = x || rest.hasStrElem x
  | .cons _ rest, x => rest.hasStrElem x

/-- `d.get(key)` on a dict-or-not value: `none` both for a missing key
and for a non-dict value (callers that would raise on a non-dict are
modelled separately, see `pyContains`/`pySubscript`). -/
def getItem : Val → List Char → Option Val
  | .dict l, k => l.lookup k
  | _, _ => none

/-- The single-quote character (written by code point to keep quoting
readable). -/
def quoteChar : Char := Char.ofNat 39

/-- Escapes applied inside a Python string repr: backslash, the chosen
quote, and the common control characters.  (Python additionally escapes
other non-printable characters; no claim depends on those.) -/
def pyEscapeChar (q c : Char) : List Char :=
  if c = '\\' then ['\\', '\\']
  else if c = q then ['\\', q]
  else if c = '\n' then ['\\', 'n']
  else if c = '\r' then ['\\', 'r']
  else if c = '\t' then ['\\', 't']
  else [c]

/-- Python `repr` of a string: quoted with `'`, or with `"` when the
string contains `'` but no `"`. -/
def pyReprStr (s : List Char) : List Char :=
  let q := if s.contains quoteChar && !s.contains '"' then '"' else quoteChar
  q :: (s.map (pyEscapeChar q)).flatten ++ [q]

/- Python `repr` of a value (used by `str` on containers). -/
mutual
def pyRepr : Val → List Char
  | .str s => pyReprStr s
  | .int n => intToChars n
  | .bool b => if b then "True".toList else "False".toList
  | .null => "None".toList
  | .dict l => '\x7b' :: pyReprFields l ++ ['\x7d']
  | .list l => '[' :: pyReprElems l ++ [']']
def pyReprFields : Fields → List Char
  | .nil => []
  | .cons k v .nil => pyReprStr k ++ ':' :: ' ' :: pyRepr v
  | .cons k v rest => pyReprStr k ++ ':' :: ' ' :: pyRepr v ++ ',' :: ' ' :: pyReprFields rest
def pyReprElems : Elems → List Char
  | .nil => []
  | .cons v .nil => pyRepr v
  | .cons v rest => pyRepr v ++ ',' :: ' ' :: pyReprElems rest
end

/-- Python `str(value)`: the string itself for a string, `repr`
otherwise. -/
def pyStr : Val → List Char
  | .str s => s
  | v => pyRepr v

/-- The per-run context store (`context = dict()` in `process`): a
string-keyed mapping in insertion order. -/
abbrev Ctx := List (List Char × Val)

/-- `"\x7b\x7b" + key + "\x7d\x7d"`, the placeholder text built for a
context key in `_substitute_context_variables`. -/
def placeholderOf (k : List Char) : List Char :=
  '\x7b' :: '\x7b' :: (k ++ ['\x7d', '\x7d'])

/-- The `for key, ctx_value in context.items():` loop of
`replace_in_value`, acting on one string leaf: for each context entry
whose placeholder occurs in the current string, return the raw context
value if the stripped string equals the placeholder, else splice in its
`str` form and continue with the next entry. -/
def replaceLoopCtx : Ctx → List Char → Val
  | [], value => .str value
  | (k, cv) :: rest, value =>
    let ph := placeholderOf k
    if isSubstr ph value then
      if pyStrip value = ph then cv
      else replaceLoopCtx rest (replaceSub ph (pyStr cv) value)
    else replaceLoopCtx rest value

/- `replace_in_value` of `_substitute_context_variables`: strings with
both a left and a right double-brace go through the context loop,
mappings and sequences are rebuilt entry by entry, everything else is
returned unchanged. -/
mutual
def replaceInValue (ctx : Ctx) : Val → Val
  | .str s =>
    if isSubstr ['\x7b', '\x7b'] s && isSubstr ['\x7d', '\x7d'] s then
      replaceLoopCtx ctx s
    else .str s
  | .dict l => .dict (replaceInFields ctx l)
  | .list l => .list (replaceInElems ctx l)
  | .int n => .int n
  | .bool b => .bool b
  | .null => .null
def replaceInFields (ctx : Ctx) : Fields → Fields
  | .nil => .nil
  | .cons k v rest => .cons k (replaceInValue ctx v) (replaceInFields ctx rest)
def replaceInElems (ctx : Ctx) : Elems → Elems
  | .nil => .nil
  | .cons v rest => .cons (replaceInValue ctx v) (replaceInElems ctx rest)
end

/-- `UnrestrictedJiraAgent._substitute_context_variables`: with an empty
context the input object itself is returned (the early
`if not context: return api_call`); otherwise the structure is rebuilt
with placeholders resolved.  (The `copy.deepcopy` of the source is the
identity on these pure trees; object identity is studied separately with
the labelled model `LVal`.) -/
def substitute_context_variables (ctx : Ctx) (api_call : Val) : Val :=
  if ctx.isEmpty then api_call else replaceInValue ctx api_call

/-- A completed HTTP response: status code, raw text, the outcome of
`response.json()` (`none` when parsing raises), and the headers. -/
structure HttpResponse where
  status_code : Nat
  text : List Char
  json : Option Val
  headers : List (List Char × List Char)

/-- The outcome of one `requests` exchange, as seen by
`GenericJiraAPI.execute_api_call`: a completed HTTP response, or an
exception raised by `session.request` (timeout, connection error, ...)
carrying `str(e)`. -/
inductive TransportOutcome where
  | resp (r : HttpResponse)
  | raise (e : List Char)

/-- `response.json() if response.text else \x7b\x7d`, with the malformed
body fallback to a `raw_response` wrapper. -/
def responseData (r : HttpResponse) : Val :=
  if r.text.isEmpty then .dict .nil
  else
    match r.json with
    | some v => v
    | none => .dict (.cons "raw_response".toList (.str r.text) .nil)

/-- The request actually handed to `requests.Session.request` for one
step: the uppercased method, the composed URL, the JSON body
(`payload if payload else None`) and query params. -/
structure ResolvedCall where
  method : List Char
  url : List Char
  body : Option Val
  params : Option Val

/-- `GenericJiraAPI.execute_api_call(method, endpoint, payload, params)`
driven by one transport outcome.  Returns the structured result dict and
the request actually performed (`none` when the arguments raise a
`TypeError` before any request goes out: a non-string `endpoint` fails
at `endpoint.startswith`, a non-string `method` at `method.upper()`;
both raises are caught by the function's own `except` and normalized to
a failure dict). -/
def execute_api_call (baseUrl : List Char) (method endpoint payload params : Val)
    (t : TransportOutcome) : Val × Option ResolvedCall :=
  match endpoint with
  | .str ep =>
    match method with
    | .str m =>
      let url := if "http".toList.isPrefixOf ep then ep else baseUrl ++ ep
      let call : ResolvedCall :=
        { method := m.map Char.toUpper
          url := url
          body := if truthy payload then some payload else none
          params := if truthy params then some params else none }
      match t with
      | .resp r =>
        (.dict (.cons "success".toList (.bool (r.status_code < 400))
          (.cons "status_code".toList (.int r.status_code)
          (.cons "data".toList (responseData r)
          (.cons "headers".toList
            (.dict (r.headers.foldr (fun p acc => .cons p.1 (.str p.2) acc) .nil)) .nil)))),
         some call)
      | .raise e =>
        (.dict (.cons "success".toList (.bool false) (.cons "error".toList (.str e) .nil)),
         some call)
    | _ =>
      (.dict (.cons "success".toList (.bool false)
        (.cons "error".toList (.str "TypeError: method must be a string".toList) .nil)),
       none)
  | _ =>
    (.dict (.cons "success".toList (.bool false)
      (.cons "error".toList (.str "TypeError: endpoint must be a string".toList) .nil)),
     none)

/-- Assignment `context[k] = v` on the context store: replace the value
in place when the key exists, append otherwise. -/
def setKey (ctx : Ctx) (k : List Char) (v : Val) : Ctx :=
  if ctx.any (fun p => p.1 = k) then
    ctx.map (fun p => if p.1 = k then (k, v) else p)
  else ctx ++ [(k, v)]

/-- Read access `context[k]` / membership, first binding wins. -/
def lookupCtx (ctx : Ctx) (k : List Char) : Option Val :=
  match ctx with
  | [] => none
  | p :: rest => if p.1 = k then some p.2 else lookupCtx rest k

/-- The context key `f"step_\x7bn\x7d_\x7bsuffix\x7d"`. -/
def ctxKey (n : Nat) (suffix : List Char) : List Char :=
  "step_".toList ++ natToChars n ++ '_' :: suffix

/-- Python `needle in data` where `data` may be any value: key lookup on
a dict, element equality on a list, substring test on a string, and a
raised `TypeError` on a non-iterable. -/
def pyContains (needle : List Char) : Val → Except (List Char) Bool
  | .dict l => .ok (l.hasKey needle)
  | .list l => .ok (l.hasStrElem needle)
  | .str s => .ok (isSubstr needle s)
  | _ => .error "TypeError: argument is not iterable".toList

/-- Python `data[needle]` with a string index: field access on a dict, a
raised `TypeError` on anything else. -/
def pySubscript (needle : List Char) : Val → Except (List Char) Val
  | .dict l =>
    match l.lookup needle with
    | some v => .ok v
    | none => .error "KeyError".toList
  | _ => .error "TypeError: indices must be integers".toList

/-- The context-recording block of `UnrestrictedJiraAgent.process` run
after a successful step (`if "id" in data: ...`, `if "key" in data: ...`,
`context[f"step_\x7bn\x7d_result"] = data`).  An exception raised by the
membership test or the subscript on a non-mapping body propagates (to
the outer `except` of `process`); in that case nothing has been written,
because in every raising path the raise happens before any assignment. -/
def storeStep (ctx : Ctx) (n : Nat) (data : Val) : Except (List Char) Ctx :=
  match pyContains "id".toList data with
  | .error e => .error e
  | .ok hasId =>
    match (if hasId then
             match pySubscript "id".toList data with
             | .error e => .error e
             | .ok v => .ok (setKey ctx (ctxKey n "id".toList) v)
           else .ok ctx : Except (List Char) Ctx) with
    | .error e => .error e
    | .ok c1 =>
      match pyContains "key".toList data with
      | .error e => .error e
      | .ok hasK =>
        match (if hasK then
                 match pySubscript "key".toList data with
                 | .error e => .error e
                 | .ok v => .ok (setKey c1 (ctxKey n "key".toList) v)
               else .ok c1 : Except (List Char) Ctx) with
        | .error e => .error e
        | .ok c2 => .ok (setKey c2 (ctxKey n "result".toList) data)

/-- One step of the plan JSON produced by the planner: its `step` number
(a non-negative integer when present), `description`, and `api_call`
mapping (absent modelled as the empty mapping, matching
`step.get("api_call", \x7b\x7d)`). -/
structure Step where
  step : Option Nat
  description : Option (List Char)
  api_call : Fields

/-- The parsed planner response consumed by `process` after the
`"plan" in ai_response` guard: `understanding`, the step list, the
`safety_checks` string list and `expected_outcome`. -/
structure AiResponse where
  understanding : Option (List Char)
  plan : List Step
  safety_checks : List (List Char)
  expected_outcome : Option (List Char)

/-- One entry appended to `execution_results`: step number, description,
the truthiness of `result.get("success", False)`, and the full result
dict returned by the executor. -/
structure StepResult where
  step : Nat
  description : Option (List Char)
  success : Bool
  result : Val

/-- `_substitute_context_variables` applied to a step's `api_call`
mapping (which `process` always passes as a dict). -/
def substFields (ctx : Ctx) (l : Fields) : Fields :=
  if ctx.isEmpty then l else replaceInFields ctx l

/-- One loop iteration's call of the executor: the step's `api_call`
after placeholder resolution, its `method`/`endpoint`/`payload`/`params`
entries extracted with the defaults of `process`
(`api_call.get("method", "GET")` and friends), handed to
`execute_api_call`. -/
def stepExec (baseUrl : List Char) (ctx : Ctx) (s : Step) (t : TransportOutcome) :
    Val × Option ResolvedCall :=
  execute_api_call baseUrl
    (((substFields ctx s.api_call).lookup "method".toList).getD (.str "GET".toList))
    (((substFields ctx s.api_call).lookup "endpoint".toList).getD (.str []))
    (((substFields ctx s.api_call).lookup "payload".toList).getD .null)
    (((substFields ctx s.api_call).lookup "params".toList).getD .null) t

/-- `result.get("success")` as a truth value (`if result.get("success"):`
and the `"success": result.get("success", False)` record agree on it). -/
def stepSuccess (result : Val) : Bool :=
  truthy ((getItem result "success".toList).getD (.bool false))

/-- `result.get("data", {})`. -/
def stepData (result : Val) : Val :=
  (getItem result "data".toList).getD (.dict .nil)

/-- The execution loop of `UnrestrictedJiraAgent.process` (the
`for step in ai_response.get("plan", [])` body): resolve placeholders,
execute, record context on success, append the step result, break on the
first failure.  `transport` is the oracle for the n-th request actually
performed.  Returns the accumulated results, context, performed
requests, and the message of an uncaught exception if one aborted the
loop (in which case the failing step was never appended). -/
def runLoop (baseUrl : List Char) (transport : Nat → TransportOutcome) :
    List Step → List StepResult → Ctx → List ResolvedCall →
    List StepResult × Ctx × List ResolvedCall × Option (List Char)
  | [], results, ctx, calls => (results, ctx, calls, none)
  | s :: rest, results, ctx, calls =>
    let stepNum := s.step.getD (results.length + 1)
    let step_out := stepExec baseUrl ctx s (transport calls.length)
    let result := step_out.1
    let calls' := calls ++ step_out.2.toList
    if stepSuccess result then
      match storeStep ctx stepNum (stepData result) with
      | .error e => (results, ctx, calls', some e)
      | .ok ctx' =>
        runLoop baseUrl transport rest
          (results ++ [⟨stepNum, s.description, stepSuccess result, result⟩]) ctx' calls'
    else
      (results ++ [⟨stepNum, s.description, stepSuccess result, result⟩], ctx, calls', none)

/-- The terminal shape of one `process` run over an already-parsed plan:
the safety-gate veto, an uncaught exception normalized by the outer
`except`, or a finished execution (`execution_results`,
`steps_completed`, `total_steps`). -/
inductive Outcome where
  | blocked (reason : List Char) (safety_checks : List (List Char)) (plan : List Step)
  | errored (msg : List Char)
  | finished (results : List StepResult) (steps_completed : Nat) (total_steps : Nat)

/-- What one run did: its terminal outcome, every request performed for
a plan step, and the results comment handed to the reporting
collaborator (`none` when `_post_results_comment` was never reached). -/
structure RunOutput where
  outcome : Outcome
  stepCalls : List ResolvedCall
  comment : Option (List Char)

/-- The safety-gate test applied to one step:
`step.get("api_call", \x7b\x7d).get("method") == "DELETE"` (an exact,
case-sensitive string comparison). -/
def stepIsDelete (s : Step) : Bool :=
  match s.api_call.lookup "method".toList with
  | some (.str m) => m = "DELETE".toList
  | _ => false

/-- The block reason returned by the safety gate. -/
def blockReason : List Char :=
  "DELETE operation requires explicit confirmation".toList

/-- One line of the results comment for one step
(`f"\x7bstatus\x7d Step \x7bstep_num\x7d: \x7bdesc\x7d\n"` plus the
error line for a failed step). -/
def stepLine (r : StepResult) : List Char :=
  (if r.success then "✅".toList else "❌".toList) ++
  " Step ".toList ++ natToChars r.step ++ ':' :: ' ' ::
  (r.description.getD "None".toList) ++ ['\n'] ++
  (if r.success then []
   else "   Error: ".toList ++
     pyStr ((getItem r.result "error".toList).getD (.str "Unknown error".toList)) ++ ['\n'])

/-- The comment text built by `_post_results_comment`: completion
header, understanding, one line per executed step, and the expected
outcome when truthy. -/
def buildResultsComment (resp : AiResponse) (results : List StepResult) : List Char :=
  "Admin request completed: ".toList ++
  natToChars (results.countP (·.success)) ++ '/' :: natToChars results.length ++
  " steps successful\n\n".toList ++
  "**Understanding:** ".toList ++ (resp.understanding.getD "N/A".toList) ++
  "\n\n".toList ++
  (results.map stepLine).flatten ++
  (match resp.expected_outcome with
   | some e => if e.isEmpty then [] else "\n**Expected Result:** ".toList ++ e
   | none => [])

/-- `UnrestrictedJiraAgent.process` from the safety gate on, for an
already-parsed planner response: if `safety_checks` is non-empty and
some step's method is the string `"DELETE"`, return the blocked dict
before any execution; otherwise run the loop, then (unless an exception
aborted it) hand the results comment to the reporting collaborator and
assemble the summary dict. -/
def processPlan (baseUrl : List Char) (transport : Nat → TransportOutcome)
    (resp : AiResponse) : RunOutput :=
  if !resp.safety_checks.isEmpty && resp.plan.any stepIsDelete then
    { outcome := .blocked blockReason resp.safety_checks resp.plan
      stepCalls := []
      comment := none }
  else
    match runLoop baseUrl transport resp.plan [] [] [] with
    | (_, _, calls, some e) =>
      { outcome := .errored e, stepCalls := calls, comment := none }
    | (results, _, calls, none) =>
      { outcome := .finished results (results.countP (·.success)) resp.plan.length
        stepCalls := calls
        comment := some (buildResultsComment resp results) }

/- Labelled values: the same trees as `Val`, but every mutable Python
object (dict or list node) carries its identity (a model of its memory
address).  Strings, numbers, booleans and `None` are immutable in
Python, so they carry no identity.  This model is used to settle what
`_substitute_context_variables` shares with its input. -/
mutual
inductive LVal where
  | str (s : List Char)
  | int (n : Int)
  | bool (b : Bool)
  | null
  | dict (id : Nat) (fields : LFields)
  | list (id : Nat) (elems : LElems)
inductive LFields where
  | nil
  | cons (key : List Char) (val : LVal) (rest : LFields)
inductive LElems where
  | nil
  | cons (val : LVal) (rest : LElems)
end

/- Erase identities, recovering the plain value. -/
mutual
def stripL : LVal → Val
  | .str s => .str s
  | .int n => .int n
  | .bool b => .bool b
  | .null => .null
  | .dict _ l => .dict (stripLFields l)
  | .list _ l => .list (stripLElems l)
def stripLFields : LFields → Fields
  | .nil => .nil
  | .cons k v rest => .cons k (stripL v) (stripLFields rest)
def stripLElems : LElems → Elems
  | .nil => .nil
  | .cons v rest => .cons (stripL v) (stripLElems rest)
end

/- The identities of every mutable node of a labelled value: the
structure two values share iff these sets intersect. -/
mutual
def mutIds : LVal → List Nat
  | .str _ => []
  | .int _ => []
  | .bool _ => []
  | .null => []
  | .dict i l => i :: mutIdsFields l
  | .list i l => i :: mutIdsElems l
def mutIdsFields : LFields → List Nat
  | .nil => []
  | .cons _ v rest => mutIds v ++ mutIdsFields rest
def mutIdsElems : LElems → List Nat
  | .nil => []
  | .cons v rest => mutIds v ++ mutIdsElems rest
end

/- `copy.deepcopy`: a structurally equal tree in which every mutable
node is freshly allocated.  The counter models the allocator: node
identities are handed out from it in sequence. -/
mutual
def relabelL : LVal → Nat → LVal × Nat
  | .str s, c => (.str s, c)
  | .int n, c => (.int n, c)
  | .bool b, c => (.bool b, c)
  | .null, c => (.null, c)
  | .dict _ l, c =>
    let p := relabelLFields l c
    (.dict p.2 p.1, p.2 + 1)
  | .list _ l, c =>
    let p := relabelLElems l c
    (.list p.2 p.1, p.2 + 1)
def relabelLFields : LFields → Nat → LFields × Nat
  | .nil, c => (.nil, c)
  | .cons k v rest, c =>
    let pv := relabelL v c
    let pr := relabelLFields rest pv.2
    (.cons k pv.1 pr.1, pr.2)
def relabelLElems : LElems → Nat → LElems × Nat
  | .nil, c => (.nil, c)
  | .cons v rest, c =>
    let pv := relabelL v c
    let pr := relabelLElems rest pv.2
    (.cons pv.1 pr.1, pr.2)
end

/-- `str(ctx_value)` on a labelled value (identity plays no part in
rendering). -/
def pyStrL (v : LVal) : List Char := pyStr (stripL v)

/-- A labelled context store. -/
abbrev LCtx := List (List Char × LVal)

/-- The context loop of `replace_in_value` on one string leaf, labelled
version: an exact-placeholder match returns the context value itself
(the very object stored in the context). -/
def replaceLoopCtxL : LCtx → List Char → LVal
  | [], value => .str value
  | (k, cv) :: rest, value =>
    let ph := placeholderOf k
    if isSubstr ph value then
      if pyStrip value = ph then cv
      else replaceLoopCtxL rest (replaceSub ph (pyStrL cv) value)
    else replaceLoopCtxL rest value

/- `replace_in_value`, labelled version: the dict and list
comprehensions build fresh objects (fresh identities from the
allocator counter), leaves are returned as-is. -/
mutual
def replaceInValueL (ctx : LCtx) : LVal → Nat → LVal × Nat
  | .str s, c =>
    (if isSubstr ['\x7b', '\x7b'] s && isSubstr ['\x7d', '\x7d'] s then
      replaceLoopCtxL ctx s
    else .str s, c)
  | .dict _ l, c =>
    let p := replaceInFieldsL ctx l c
    (.dict p.2 p.1, p.2 + 1)
  | .list _ l, c =>
    let p := replaceInElemsL ctx l c
    (.list p.2 p.1, p.2 + 1)
  | .int n, c => (.int n, c)
  | .bool b, c => (.bool b, c)
  | .null, c => (.null, c)
def replaceInFieldsL (ctx : LCtx) : LFields → Nat → LFields × Nat
  | .nil, c => (.nil, c)
  | .cons k v rest, c =>
    let pv := replaceInValueL ctx v c
    let pr := replaceInFieldsL ctx rest pv.2
    (.cons k pv.1 pr.1, pr.2)
def replaceInElemsL (ctx : LCtx) : LElems → Nat → LElems × Nat
  | .nil, c => (.nil, c)
  | .cons v rest, c =>
    let pv := replaceInValueL ctx v c
    let pr := replaceInElemsL ctx rest pv.2
    (.cons pv.1 pr.1, pr.2)
end

/-- `_substitute_context_variables`, labelled version: the early return
`if not context: return api_call` hands back the input object itself;
otherwise the input is deep-copied and rebuilt.  `counter` is the
allocator state; a run has every live identity below it. -/
def substitute_context_variables_L (ctx : LCtx) (api_call : LVal) (counter : Nat) : LVal :=
  if ctx.isEmpty then api_call
  else
    let p := relabelL api_call counter
    (replaceInValueL ctx p.1 p.2).1

/-- Whether an outcome is the safety-gate veto. -/
def Outcome.isBlocked : Outcome → Bool
  | .blocked _ _ _ => true
  | _ => false

/-- A transport outcome that makes its step succeed with a mapping body:
a completed response with status below 400 whose decoded body is a
dict. -/
def outcomeSucceedsDict : TransportOutcome → Bool
  | .resp r => decide (r.status_code < 400) &&
      (match responseData r with | .dict _ => true | _ => false)
  | .raise _ => false

/-- A transport outcome that makes its step fail: a raised exception or
a status of 400 and above. -/
def outcomeFails : TransportOutcome → Bool
  | .resp r => decide (400 ≤ r.status_code)
  | .raise _ => true

/-- The decoded body of a completed response (`.null` for a raise,
which produces no body). -/
def outcomeBody : TransportOutcome → Val
  | .resp r => responseData r
  | .raise _ => .null

/-- An optional field value that substitution is guaranteed to keep a
string: absent, or a string without an opening double-brace (the
`replace_in_value` guard then leaves it untouched). -/
def plainStrOpt : Option Val → Bool
  | none => true
  | some (.str s) => !(isSubstr ['\x7b', '\x7b'] s && isSubstr ['\x7d', '\x7d'] s)
  | some _ => false

/-- A step whose `method` and `endpoint` survive substitution as
strings, so that its request always actually goes out. -/
def stepWellFormed (s : Step) : Bool :=
  plainStrOpt (s.api_call.lookup "method".toList) &&
  plainStrOpt (s.api_call.lookup "endpoint".toList)

/-- A context key containing neither brace character, as every key the
run ever writes (`step_<n>_id` / `step_<n>_key` / `step_<n>_result`)
does. -/
def keyNoBraces (k : List Char) : Bool :=
  !k.contains '\x7b' && !k.contains '\x7d'

/- Concrete fixtures used by witnesses and counterexamples. -/

/-- A transport oracle that always completes with status 200 and the
body `\x7b"id": 1001\x7d`. -/
def trId1001 : Nat → TransportOutcome := fun _ =>
  .resp { status_code := 200, text := "x".toList,
          json := some (.dict (.cons "id".toList (.int 1001) .nil)), headers := [] }

/-- A transport oracle that always raises a connection error. -/
def trRaise : Nat → TransportOutcome := fun _ =>
  .raise "ConnectionError".toList

/-- A transport oracle that always completes with status 200 and the
non-mapping body `5`. -/
def trInt5 : Nat → TransportOutcome := fun _ =>
  .resp { status_code := 200, text := "5".toList, json := some (.int 5), headers := [] }

/-- A step performing `DELETE /x`. -/
def delStep : Step :=
  { step := some 1, description := some "remove the field".toList,
    api_call := .cons "method".toList (.str "DELETE".toList)
      (.cons "endpoint".toList (.str "/x".toList) .nil) }

/-- A step whose method is the lowercase string `"delete"`. -/
def delLowerStep : Step :=
  { step := some 1, description := some "remove the field".toList,
    api_call := .cons "method".toList (.str "delete".toList)
      (.cons "endpoint".toList (.str "/x".toList) .nil) }

/-- A plain `GET /a` step numbered 1. -/
def getStep1 : Step :=
  { step := some 1, description := some "list fields".toList,
    api_call := .cons "method".toList (.str "GET".toList)
      (.cons "endpoint".toList (.str "/a".toList) .nil) }

/-- A plain `GET /b` step numbered 2. -/
def getStep2 : Step :=
  { step := some 2, description := some "read the field".toList,
    api_call := .cons "method".toList (.str "GET".toList)
      (.cons "endpoint".toList (.str "/b".toList) .nil) }

/-- A planner response with one DELETE step and a non-empty
`safety_checks` list. -/
def respDelChecked : AiResponse :=
  { understanding := some "delete request".toList, plan := [delStep],
    safety_checks := ["destructive".toList], expected_outcome := some "field removed".toList }

/-- The same DELETE plan with an empty `safety_checks` list. -/
def respDelUnchecked : AiResponse :=
  { understanding := some "delete request".toList, plan := [delStep],
    safety_checks := [], expected_outcome := some "field removed".toList }

/-- A plan whose single step carries the lowercase method `"delete"`,
with a non-empty `safety_checks` list. -/
def respDelLower : AiResponse :=
  { understanding := some "delete request".toList, plan := [delLowerStep],
    safety_checks := ["destructive".toList], expected_outcome := some "field removed".toList }

/-- A two-step GET plan with no safety checks. -/
def respTwoGets : AiResponse :=
  { understanding := some "two reads".toList, plan := [getStep1, getStep2],
    safety_checks := [], expected_outcome := some "data read".toList }

/-- A one-step GET plan with no safety checks. -/
def respOneGet : AiResponse :=
  { understanding := none, plan := [getStep1],
    safety_checks := [], expected_outcome := none }

/- ------------------------------------------------------------------ -/
/- Helper lemmas.                                                     -/
/- ------------------------------------------------------------------ -/

theorem isSubstr_infix_iff (p s : List Char) : isSubstr p s = true ↔ p <:+: s := by
  unfold isSubstr
  rw [List.any_eq_true]
  constructor
  · rintro ⟨t, ht, hp⟩
    rw [List.mem_tails _ _] at ht
    rw [ List.isPrefixOf_iff_prefix] at hp
    exact List.infix_iff_prefix_suffix.mpr ⟨t, hp, ht⟩
  · intro h
    obtain ⟨t, hp, ht⟩ := List.infix_iff_prefix_suffix.mp h
    exact ⟨t, (List.mem_tails _ _).mpr ht, List.isPrefixOf_iff_prefix.mpr hp⟩

theorem isSubstr_of_decomp (p u t : List Char) : isSubstr p (u ++ p ++ t) = true := by
  rw [isSubstr_infix_iff]
  exact ⟨u, t, rfl⟩

theorem isSubstr_false_iff (p s : List Char) :
    isSubstr p s = false ↔ ∀ u t, u ++ p ++ t ≠ s := by
  constructor
  · intro h u t he
    have : isSubstr p s = true := he ▸ isSubstr_of_decomp p u t
    rw [h] at this
    exact Bool.noConfusion this
  · intro h
    cases hb : isSubstr p s with
    | false => rfl
    | true =>
      obtain ⟨u, t, he⟩ := (isSubstr_infix_iff p s).mp hb
      exact absurd he (h u t)

theorem natToCharsFuel_congr : ∀ (f g n : Nat), n < f → n < g →
    natToCharsFuel f n = natToCharsFuel g n := by
  intro f
  induction f with
  | zero => intro g n h; omega
  | succ f ih =>
    intro g n hf hg
    cases g with
    | zero => omega
    | succ g =>
      show natToCharsFuel (f + 1) n = natToCharsFuel (g + 1) n
      unfold natToCharsFuel
      by_cases h : n < 10
      · simp [h]
      · have hd : n / 10 < n := Nat.div_lt_self (by omega) (by omega)
        simp only [if_neg h]
        rw [ih g (n / 10) (by omega) (by omega)]

theorem natToChars_of_lt (n : Nat) (h : n < 10) : natToChars n = [Nat.digitChar n] := by
  unfold natToChars natToCharsFuel
  simp [h]

theorem natToChars_of_ge (n : Nat) (h : 10 ≤ n) :
    natToChars n = natToChars (n / 10) ++ [Nat.digitChar (n % 10)] := by
  conv_lhs => unfold natToChars natToCharsFuel
  simp only [if_neg (by omega : ¬ n < 10)]
  rw [natToCharsFuel_congr n (n / 10 + 1) (n / 10)
    (Nat.lt_of_lt_of_le (Nat.div_lt_self (by omega) (by omega)) (by omega)) (by omega)]
  rfl

theorem natToChars_ne_nil (n : Nat) : natToChars n ≠ [] := by
  by_cases h : n < 10
  · rw [natToChars_of_lt n h]; simp
  · rw [natToChars_of_ge n (by omega)]; simp

theorem digitChar_inj (a b : Nat) (ha : a < 10) (hb : b < 10)
    (h : Nat.digitChar a = Nat.digitChar b) : a = b := by
  interval_cases a <;> interval_cases b <;> first | rfl | (exfalso; revert h; decide)

theorem natToChars_inj : ∀ (a b : Nat), natToChars a = natToChars b → a = b := by
  intro a
  induction a using Nat.strong_induction_on with
  | _ a ih =>
    intro b h
    by_cases ha : a < 10
    · by_cases hb : b < 10
      · rw [natToChars_of_lt a ha, natToChars_of_lt b hb] at h
        exact digitChar_inj a b ha hb (List.cons.injEq .. ▸ h).1
      · rw [natToChars_of_lt a ha, natToChars_of_ge b (by omega)] at h
        have := congrArg List.length h
        simp at this
        exact absurd this (natToChars_ne_nil (b / 10))
    · by_cases hb : b < 10
      · rw [natToChars_of_ge a (by omega), natToChars_of_lt b hb] at h
        have := congrArg List.length h
        simp at this
        exact absurd this (natToChars_ne_nil (a / 10))
      · rw [natToChars_of_ge a (by omega), natToChars_of_ge b (by omega)] at h
        have h' := congrArg List.reverse h
        simp only [List.reverse_append, List.reverse_cons, List.reverse_nil,
          List.nil_append, List.singleton_append] at h'
        obtain ⟨hdig, hrest⟩ := List.cons.injEq .. ▸ h'
        have hmod : a % 10 = b % 10 :=
          digitChar_inj _ _ (Nat.mod_lt _ (by omega)) (Nat.mod_lt _ (by omega)) hdig
        have hdiv : a / 10 = b / 10 := by
          apply ih (a / 10) (Nat.div_lt_self (by omega) (by omega))
          have := congrArg List.reverse hrest
          simpa using this
        omega

theorem Fields.hasKey_eq_isSome : ∀ (l : Fields) (k : List Char),
    l.hasKey k = (l.lookup k).isSome
  | .nil, _ => rfl
  | .cons k' v rest, k => by
    show (decide (k' = k) || rest.hasKey k) = _
    by_cases h : k' = k
    · simp [Fields.lookup, h]
    · simp [Fields.lookup, h, Fields.hasKey_eq_isSome rest k]

theorem lookup_map_setEntry_other (ctx : Ctx) (k k' : List Char) (v : Val) (h : k' ≠ k) :
    lookupCtx (ctx.map (fun p => if p.1 = k then (k, v) else p)) k' = lookupCtx ctx k' := by
  induction ctx with
  | nil => rfl
  | cons q rest ih =>
    simp only [List.map_cons]
    by_cases hq : q.1 = k
    · rw [if_pos hq]
      show lookupCtx ((k, v) :: _) k' = lookupCtx (q :: rest) k'
      simp only [lookupCtx]
      rw [if_neg (fun he : k = k' => h he.symm), if_neg (fun he : q.1 = k' => h (he.symm.trans hq))]
      exact ih
    · rw [if_neg hq]
      simp only [lookupCtx]
      by_cases hq' : q.1 = k' <;> simp [hq', ih]

theorem lookup_map_setEntry_same (ctx : Ctx) (k : List Char) (v : Val)
    (h : ctx.any (fun p => p.1 = k) = true) :
    lookupCtx (ctx.map (fun p => if p.1 = k then (k, v) else p)) k = some v := by
  induction ctx with
  | nil => simp at h
  | cons q rest ih =>
    simp only [List.map_cons]
    by_cases hq : q.1 = k
    · rw [if_pos hq]
      simp [lookupCtx]
    · rw [if_neg hq]
      simp only [lookupCtx]
      rw [if_neg hq]
      apply ih
      rw [List.any_cons] at h
      rcases (Bool.or_eq_true _ _).mp h with h1 | h2
      · exact absurd (of_decide_eq_true h1) hq
      · exact h2

theorem lookupCtx_append_one_same (ctx : Ctx) (k : List Char) (v : Val) :
    lookupCtx (ctx ++ [(k, v)]) k = some ((lookupCtx ctx k).getD v) := by
  induction ctx with
  | nil => simp [lookupCtx]
  | cons q rest ih =>
    simp only [List.cons_append, lookupCtx]
    by_cases hq : q.1 = k <;> simp [hq, ih]

theorem lookupCtx_append_one_other (ctx : Ctx) (k k' : List Char) (v : Val) (h : k' ≠ k) :
    lookupCtx (ctx ++ [(k, v)]) k' = lookupCtx ctx k' := by
  induction ctx with
  | nil =>
    show lookupCtx [(k, v)] k' = none
    simp only [lookupCtx]
    rw [if_neg (fun he : k = k' => h he.symm)]
  | cons q rest ih =>
    simp only [List.cons_append, lookupCtx]
    by_cases hq : q.1 = k' <;> simp [hq, ih]

theorem lookupCtx_eq_none_of_not_any (ctx : Ctx) (k : List Char)
    (h : ctx.any (fun p => p.1 = k) = false) : lookupCtx ctx k = none := by
  induction ctx with
  | nil => rfl
  | cons q rest ih =>
    simp only [List.any_cons, Bool.or_eq_false_iff, decide_eq_false_iff_not] at h
    simp only [lookupCtx, if_neg h.1]
    exact ih h.2

theorem lookupCtx_setKey_same (ctx : Ctx) (k : List Char) (v : Val) :
    lookupCtx (setKey ctx k v) k = some v := by
  unfold setKey
  by_cases hex : ctx.any (fun p => p.1 = k)
  · rw [if_pos hex]
    exact lookup_map_setEntry_same ctx k v hex
  · rw [if_neg hex]
    rw [lookupCtx_append_one_same, lookupCtx_eq_none_of_not_any ctx k (Bool.of_not_eq_true hex)]
    rfl

theorem lookupCtx_setKey_other (ctx : Ctx) (k k' : List Char) (v : Val) (h : k' ≠ k) :
    lookupCtx (setKey ctx k v) k' = lookupCtx ctx k' := by
  unfold setKey
  by_cases hex : ctx.any (fun p => p.1 = k)
  · rw [if_pos hex]
    exact lookup_map_setEntry_other ctx k k' v h
  · rw [if_neg hex]
    exact lookupCtx_append_one_other ctx k k' v h

theorem ctxKey_inj_num (n m : Nat) (s : List Char) (h : ctxKey n s = ctxKey m s) :
    n = m := by
  unfold ctxKey at h
  have h1 : natToChars n ++ '_' :: s = natToChars m ++ '_' :: s :=
    @List.append_cancel_left _ "step_".toList _ _ h
  have h2 : natToChars n = natToChars m :=
    @List.append_cancel_right _ _ ('_' :: s) _ h1
  exact natToChars_inj n m h2

theorem ctxKey_ne_of_last (n m : Nat) (s t : List Char) (c d : Char)
    (hs : ∃ u, s.reverse = c :: u) (ht : ∃ u, t.reverse = d :: u) (hcd : c ≠ d) :
    ctxKey n s ≠ ctxKey m t := by
  intro h
  have hrev := congrArg List.reverse h
  unfold ctxKey at hrev
  obtain ⟨u, hu⟩ := hs
  obtain ⟨w, hw⟩ := ht
  simp only [List.reverse_append, List.reverse_cons, List.append_assoc, hu, hw,
    List.cons_append] at hrev
  exact hcd (List.cons.injEq .. ▸ hrev).1

theorem ctxKey_id_ne_key (n m : Nat) :
    ctxKey n "id".toList ≠ ctxKey m "key".toList :=
  ctxKey_ne_of_last n m _ _ 'd' 'y' ⟨['i'], rfl⟩ ⟨['e', 'k'], rfl⟩ (by decide)

theorem ctxKey_id_ne_result (n m : Nat) :
    ctxKey n "id".toList ≠ ctxKey m "result".toList :=
  ctxKey_ne_of_last n m _ _ 'd' 't' ⟨['i'], rfl⟩ ⟨['l', 'u', 's', 'e', 'r'], rfl⟩ (by decide)

theorem ctxKey_key_ne_result (n m : Nat) :
    ctxKey n "key".toList ≠ ctxKey m "result".toList :=
  ctxKey_ne_of_last n m _ _ 'y' 't' ⟨['e', 'k'], rfl⟩ ⟨['l', 'u', 's', 'e', 'r'], rfl⟩ (by decide)

theorem storeStep_dict_eq (ctx : Ctx) (n : Nat) (l : Fields) :
    storeStep ctx n (.dict l) = .ok (setKey
      (match l.lookup "key".toList with
       | some v => setKey
           (match l.lookup "id".toList with
            | some w => setKey ctx (ctxKey n "id".toList) w
            | none => ctx) (ctxKey n "key".toList) v
       | none =>
           match l.lookup "id".toList with
           | some w => setKey ctx (ctxKey n "id".toList) w
           | none => ctx)
      (ctxKey n "result".toList) (.dict l)) := by
  unfold storeStep
  simp only [pyContains]
  rcases hid : l.lookup ['i', 'd'] with _ | w
  all_goals rcases hk : l.lookup ['k', 'e', 'y'] with _ | v
  all_goals simp [Fields.hasKey_eq_isSome, hid, hk, pySubscript]

theorem storeStep_dict_spec (ctx : Ctx) (n : Nat) (l : Fields) :
    ∃ c, storeStep ctx n (.dict l) = .ok c ∧
      lookupCtx c (ctxKey n "result".toList) = some (.dict l) ∧
      (∀ v, l.lookup "id".toList = some v →
        lookupCtx c (ctxKey n "id".toList) = some v) ∧
      (∀ v, l.lookup "key".toList = some v →
        lookupCtx c (ctxKey n "key".toList) = some v) ∧
      (∀ k', k' ≠ ctxKey n "id".toList → k' ≠ ctxKey n "key".toList →
        k' ≠ ctxKey n "result".toList → lookupCtx c k' = lookupCtx ctx k') := by
  have he := storeStep_dict_eq ctx n l
  rcases hid : l.lookup "id".toList with _ | w
  all_goals rcases hk : l.lookup "key".toList with _ | v
  all_goals rw [hid, hk] at he
  all_goals simp only [] at he
  · exact ⟨_, he, lookupCtx_setKey_same .., by simp [hid], by simp [hk],
      fun k' _ _ h3 => lookupCtx_setKey_other _ _ _ _ h3⟩
  · refine ⟨_, he, lookupCtx_setKey_same .., by simp [hid], ?_, ?_⟩
    · intro v' hv'
      cases hv'
      rw [lookupCtx_setKey_other _ _ _ _ (ctxKey_key_ne_result n n)]
      exact lookupCtx_setKey_same ..
    · intro k' _ h2 h3
      rw [lookupCtx_setKey_other _ _ _ _ h3, lookupCtx_setKey_other _ _ _ _ h2]
  · refine ⟨_, he, lookupCtx_setKey_same .., ?_, by simp [hk], ?_⟩
    · intro v' hv'
      cases hv'
      rw [lookupCtx_setKey_other _ _ _ _ (ctxKey_id_ne_result n n)]
      exact lookupCtx_setKey_same ..
    · intro k' h1 _ h3
      rw [lookupCtx_setKey_other _ _ _ _ h3, lookupCtx_setKey_other _ _ _ _ h1]
  · refine ⟨_, he, lookupCtx_setKey_same .., ?_, ?_, ?_⟩
    · intro v' hv'
      cases hv'
      rw [lookupCtx_setKey_other _ _ _ _ (ctxKey_id_ne_result n n),
        lookupCtx_setKey_other _ _ _ _ (ctxKey_id_ne_key n n)]
      exact lookupCtx_setKey_same ..
    · intro v' hv'
      cases hv'
      rw [lookupCtx_setKey_other _ _ _ _ (ctxKey_key_ne_result n n)]
      exact lookupCtx_setKey_same ..
    · intro k' h1 h2 h3
      rw [lookupCtx_setKey_other _ _ _ _ h3, lookupCtx_setKey_other _ _ _ _ h2,
        lookupCtx_setKey_other _ _ _ _ h1]

/- ------------------------------------------------------------------ -/
/- Claims.                                                            -/
/- ------------------------------------------------------------------ -/

/-- C6: for every method, endpoint, payload and query parameters, the
step executor returns a structured result and never propagates an
unhandled fault (the function is total and always yields a result dict
with a boolean `success` entry); on a completed transport exchange it
returns the full dict whose `success` is exactly `status_code < 400`
(the body is stored under the `data` key, even when the text was
unparsable); on a raised transport exception it returns
`\x7b success: False, error \x7d`. -/
theorem claim_C6 (baseUrl : List Char) (method endpoint payload params : Val)
    (t : TransportOutcome) :
    (∃ b, getItem (execute_api_call baseUrl method endpoint payload params t).1
      "success".toList = some (.bool b)) ∧
    (∀ m ep r, method = .str m → endpoint = .str ep → t = .resp r →
      (execute_api_call baseUrl method endpoint payload params t).1 =
        .dict (.cons "success".toList (.bool (r.status_code < 400))
          (.cons "status_code".toList (.int r.status_code)
          (.cons "data".toList (responseData r)
          (.cons "headers".toList
            (.dict (r.headers.foldr (fun p acc => .cons p.1 (.str p.2) acc) .nil))
            .nil)))) ∧
      (getItem (execute_api_call baseUrl method endpoint payload params t).1
          "success".toList = some (.bool true) ↔ r.status_code < 400)) ∧
    (∀ m ep e, method = .str m → endpoint = .str ep → t = .raise e →
      (execute_api_call baseUrl method endpoint payload params t).1 =
        .dict (.cons "success".toList (.bool false)
          (.cons "error".toList (.str e) .nil))) := by
  refine ⟨?_, ?_, ?_⟩
  · rcases endpoint with s | n | b | _ | l | l <;>
      [skip; exact ⟨false, rfl⟩; exact ⟨false, rfl⟩; exact ⟨false, rfl⟩;
       exact ⟨false, rfl⟩; exact ⟨false, rfl⟩]
    rcases method with m | n | b | _ | l | l <;>
      [skip; exact ⟨false, rfl⟩; exact ⟨false, rfl⟩; exact ⟨false, rfl⟩;
       exact ⟨false, rfl⟩; exact ⟨false, rfl⟩]
    rcases t with r | e
    · exact ⟨decide (r.status_code < 400), by
        simp [execute_api_call, getItem, Fields.lookup]⟩
    · exact ⟨false, rfl⟩
  · rintro m ep r rfl rfl rfl
    refine ⟨rfl, ?_⟩
    constructor
    · intro h
      simp only [execute_api_call, getItem, Fields.lookup, if_pos rfl] at h
      have := (Option.some.injEq .. ▸ h)
      have hb : decide (r.status_code < 400) = true := by
        have := (Val.bool.injEq .. ▸ this)
        simpa using this.symm
      exact of_decide_eq_true hb
    · intro h
      simp [execute_api_call, getItem, Fields.lookup, h]
  · rintro m ep e rfl rfl rfl
    rfl

/-- C6 witness: a completed 200 exchange through the executor yields a
result dict whose `success` entry is `True`. -/
theorem claim_C6_witness :
    getItem (execute_api_call "b".toList (.str "GET".toList) (.str "/x".toList)
      .null .null (.resp ⟨200, "t".toList, some (.int 1), []⟩)).1 "success".toList
    = some (.bool true) := by
  have h := claim_C6 "b".toList (.str "GET".toList) (.str "/x".toList) .null .null
    (.resp ⟨200, "t".toList, some (.int 1), []⟩)
  exact (h.2.1 _ _ _ rfl rfl rfl).2.mpr (by decide)

/-- C1: a run is vetoed — returning the blocked dict that carries the
fixed reason, the `safety_checks` and the plan, with no step executed,
no request performed and no comment posted — if and only if some step's
method is the string `"DELETE"` and `safety_checks` is non-empty; in
particular a DELETE plan with empty `safety_checks` is not blocked and
falls through to the execution loop. -/
theorem claim_C1 (baseUrl : List Char) (transport : Nat → TransportOutcome)
    (resp : AiResponse) :
    ((resp.safety_checks ≠ [] ∧ ∃ s ∈ resp.plan, stepIsDelete s = true) →
      processPlan baseUrl transport resp =
        { outcome := .blocked blockReason resp.safety_checks resp.plan,
          stepCalls := [], comment := none }) ∧
    (¬(resp.safety_checks ≠ [] ∧ ∃ s ∈ resp.plan, stepIsDelete s = true) →
      (processPlan baseUrl transport resp).outcome.isBlocked = false) := by
  constructor
  · rintro ⟨hne, s, hs, hdel⟩
    unfold processPlan
    rw [if_pos]
    rw [Bool.and_eq_true, List.any_eq_true]
    exact ⟨by simp [List.isEmpty_iff, hne], ⟨s, hs, hdel⟩⟩
  · intro h
    unfold processPlan
    rw [if_neg]
    · rcases hr : runLoop baseUrl transport resp.plan [] [] [] with ⟨a, b, c, d⟩
      cases d <;> simp [Outcome.isBlocked]
    · intro hb
      rw [Bool.and_eq_true, List.any_eq_true] at hb
      refine h ⟨?_, hb.2⟩
      have := hb.1
      simp [List.isEmpty_iff] at this
      exact this

/-- C1 witness: the concrete DELETE plan with a non-empty
`safety_checks` list is vetoed with no request performed, and the same
plan without safety checks is not blocked. -/
theorem claim_C1_witness :
    processPlan "b".toList trId1001 respDelChecked =
      { outcome := .blocked blockReason respDelChecked.safety_checks respDelChecked.plan,
        stepCalls := [], comment := none } ∧
    (processPlan "b".toList trId1001 respDelUnchecked).outcome.isBlocked = false := by
  constructor
  · exact (claim_C1 "b".toList trId1001 respDelChecked).1
      ⟨by decide, delStep, by simp [respDelChecked], by decide⟩
  · exact (claim_C1 "b".toList trId1001 respDelUnchecked).2
      (by rintro ⟨h, -⟩; exact h rfl)

/-- C10: the safety gate compares the method with `"DELETE"`
case-sensitively while the executor uppercases it before performing the
request; the concrete plan whose single step has the lowercase method
`"delete"` and a non-empty `safety_checks` list is therefore not
blocked, and the run performs an HTTP request whose method is
`"DELETE"`. -/
theorem claim_C10 :
    respDelLower.safety_checks = ["destructive".toList] ∧
    respDelLower.plan.map (fun s => s.api_call.lookup "method".toList) =
      [some (.str "delete".toList)] ∧
    (processPlan "b".toList trId1001 respDelLower).outcome.isBlocked = false ∧
    (processPlan "b".toList trId1001 respDelLower).stepCalls.map ResolvedCall.method =
      ["DELETE".toList] := by
  refine ⟨rfl, rfl, rfl, ?_⟩
  rfl

/-- C4 counterexample: the claim promises `step_1_result = B` after any
successful step, but the non-iterable body `B = 5` makes the membership
test `"id" in data` raise a `TypeError` (no context entry is written and
the whole run aborts with an error object), and the list body
`B = ["id"]` passes the membership test only to raise at the subscript
`data["id"]`, again before any write. -/
theorem claim_C4_counterexample :
    storeStep [] 1 (.int 5) = .error "TypeError: argument is not iterable".toList ∧
    storeStep [] 1 (.list (.cons (.str "id".toList) .nil)) =
      .error "TypeError: indices must be integers".toList ∧
    (processPlan "b".toList trInt5 respOneGet).outcome =
      .errored "TypeError: argument is not iterable".toList ∧
    (processPlan "b".toList trInt5 respOneGet).stepCalls.length = 1 :=
  ⟨rfl, rfl, rfl, rfl⟩

/-- C4 (amended): after a step with index `n` succeeds: for a *mapping*
body `B` the context store maps `step_n_result` to exactly `B`,
`step_n_id` to `B["id"]` when present and `step_n_key` to `B["key"]`
when present (`step_n_result` is written whether or not they are); for a
sequence body containing neither `"id"` nor `"key"` as an element, and
for a string body containing neither as a substring, `step_n_result` is
likewise written as exactly `B` and nothing else is written; a
non-iterable body (number, boolean, null) instead makes the membership
test `"id" in data` raise before anything is written.  After a failed
step the loop writes no context entry and stops with the context
unchanged. -/
theorem claim_C4 :
    (∀ (ctx : Ctx) (n : Nat) (l : Fields),
      ∃ c, storeStep ctx n (.dict l) = .ok c ∧
        lookupCtx c (ctxKey n "result".toList) = some (.dict l) ∧
        (∀ v, l.lookup "id".toList = some v →
          lookupCtx c (ctxKey n "id".toList) = some v) ∧
        (∀ v, l.lookup "key".toList = some v →
          lookupCtx c (ctxKey n "key".toList) = some v)) ∧
    (∀ (ctx : Ctx) (n : Nat) (es : Elems),
      es.hasStrElem "id".toList = false →
      es.hasStrElem "key".toList = false →
      storeStep ctx n (.list es) =
        .ok (setKey ctx (ctxKey n "result".toList) (.list es)) ∧
      lookupCtx (setKey ctx (ctxKey n "result".toList) (.list es))
        (ctxKey n "result".toList) = some (.list es)) ∧
    (∀ (ctx : Ctx) (n : Nat) (t : List Char),
      isSubstr "id".toList t = false →
      isSubstr "key".toList t = false →
      storeStep ctx n (.str t) =
        .ok (setKey ctx (ctxKey n "result".toList) (.str t)) ∧
      lookupCtx (setKey ctx (ctxKey n "result".toList) (.str t))
        (ctxKey n "result".toList) = some (.str t)) ∧
    (∀ (ctx : Ctx) (n : Nat),
      (∀ m : Int, storeStep ctx n (.int m) =
        .error "TypeError: argument is not iterable".toList) ∧
      (∀ b : Bool, storeStep ctx n (.bool b) =
        .error "TypeError: argument is not iterable".toList) ∧
      storeStep ctx n .null =
        .error "TypeError: argument is not iterable".toList) ∧
    (∀ (baseUrl : List Char) (transport : Nat → TransportOutcome) (s : Step)
        (rest : List Step) (results : List StepResult) (ctx : Ctx)
        (calls : List ResolvedCall),
      stepSuccess (stepExec baseUrl ctx s (transport calls.length)).1 = false →
      runLoop baseUrl transport (s :: rest) results ctx calls =
        (results ++ [⟨s.step.getD (results.length + 1), s.description, false,
            (stepExec baseUrl ctx s (transport calls.length)).1⟩], ctx,
          calls ++ (stepExec baseUrl ctx s (transport calls.length)).2.toList, none)) := by
  refine ⟨?_, ?_, ?_, ?_, ?_⟩
  · intro ctx n l
    obtain ⟨c, h1, h2, h3, h4, _⟩ := storeStep_dict_spec ctx n l
    exact ⟨c, h1, h2, h3, h4⟩
  · intro ctx n es h1 h2
    have h1' : es.hasStrElem ['i', 'd'] = false := h1
    have h2' : es.hasStrElem ['k', 'e', 'y'] = false := h2
    refine ⟨?_, lookupCtx_setKey_same ..⟩
    simp [storeStep, pyContains, h1', h2']
  · intro ctx n t h1 h2
    have h1' : isSubstr ['i', 'd'] t = false := h1
    have h2' : isSubstr ['k', 'e', 'y'] t = false := h2
    refine ⟨?_, lookupCtx_setKey_same ..⟩
    simp [storeStep, pyContains, h1', h2']
  · intro ctx n
    exact ⟨fun m => rfl, fun b => rfl, rfl⟩
  · intro baseUrl transport s rest results ctx calls h
    simp [runLoop, h]

/-- C4 witness: recording the body `\x7b"id": 1001\x7d` for step 1 in an
empty context yields exactly the entries `step_1_id` and
`step_1_result`; the list body `[3]` and the string body `"ok"` are
recorded as `step_n_result` alone; and a concrete failing step leaves
the context empty and aborts the loop. -/
theorem claim_C4_witness :
    lookupCtx [("step_1_id".toList, Val.int 1001),
        ("step_1_result".toList, .dict (.cons "id".toList (.int 1001) .nil))]
      (ctxKey 1 "id".toList) = some (.int 1001) ∧
    storeStep [] 2 (.list (.cons (.int 3) .nil)) =
      .ok (setKey [] (ctxKey 2 "result".toList) (.list (.cons (.int 3) .nil))) ∧
    storeStep [] 3 (.str "ok".toList) =
      .ok (setKey [] (ctxKey 3 "result".toList) (.str "ok".toList)) ∧
    (runLoop "b".toList trRaise [getStep1] [] [] []).2.1 = ([] : Ctx) := by
  refine ⟨?_, ?_, ?_, ?_⟩
  · obtain ⟨c, h1, _, h3, _⟩ :=
      claim_C4.1 [] 1 (.cons "id".toList (.int 1001) .nil)
    have hc : c = [("step_1_id".toList, Val.int 1001),
        ("step_1_result".toList, .dict (.cons "id".toList (.int 1001) .nil))] := by
      have h0 : storeStep [] 1 (.dict (.cons "id".toList (.int 1001) .nil)) =
          .ok [("step_1_id".toList, Val.int 1001),
            ("step_1_result".toList, .dict (.cons "id".toList (.int 1001) .nil))] := rfl
      have := h1.symm.trans h0
      exact (Except.ok.injEq .. ▸ this)
    exact hc ▸ h3 (.int 1001) rfl
  · exact (claim_C4.2.1 [] 2 (.cons (.int 3) .nil) rfl rfl).1
  · exact (claim_C4.2.2.1 [] 3 "ok".toList (by decide) (by decide)).1
  · rw [claim_C4.2.2.2.2 "b".toList trRaise getStep1 [] [] [] [] rfl]

theorem replaceLoopCtx_no_occurrence : ∀ (ctx : Ctx) (s : List Char),
    (∀ p ∈ ctx, isSubstr (placeholderOf p.1) s = false) →
    replaceLoopCtx ctx s = .str s := by
  intro ctx
  induction ctx with
  | nil => intro s _; rfl
  | cons p rest ih =>
    intro s h
    rcases p with ⟨k, cv⟩
    have hk := h (k, cv) (List.mem_cons_self ..)
    simp only [replaceLoopCtx, hk, Bool.false_eq_true, if_false]
    exact ih s (fun q hq => h q (List.mem_cons_of_mem _ hq))

/-- C7: a placeholder whose name is not a context key is left as
literal text (when no context entry's placeholder occurs in a string,
the string comes back unchanged — and the substitution engine is a total
function, so no exception is possible), while the rest of the structure,
including known placeholders, is still resolved: in the concrete mixed
call below `\x7b\x7bmissing\x7d\x7d` stays literal and
`\x7b\x7bstep_1_id\x7d\x7d` resolves to the raw `1001`. -/
theorem claim_C7 :
    (∀ (ctx : Ctx) (s : List Char),
      (∀ p ∈ ctx, isSubstr (placeholderOf p.1) s = false) →
      substitute_context_variables ctx (.str s) = .str s) ∧
    (substitute_context_variables [("step_1_id".toList, .int 1001)]
      (.dict (.cons "endpoint".toList (.str "/f/\x7b\x7bmissing\x7d\x7d".toList)
        (.cons "name".toList (.str "\x7b\x7bstep_1_id\x7d\x7d".toList) .nil))) =
      .dict (.cons "endpoint".toList (.str "/f/\x7b\x7bmissing\x7d\x7d".toList)
        (.cons "name".toList (.int 1001) .nil))) := by
  constructor
  · intro ctx s h
    unfold substitute_context_variables
    by_cases hctx : ctx.isEmpty
    · rw [if_pos hctx]
    · rw [if_neg hctx]
      show (if isSubstr ['\x7b', '\x7b'] s && isSubstr ['\x7d', '\x7d'] s
        then replaceLoopCtx ctx s else .str s) = .str s
      by_cases hg : isSubstr ['\x7b', '\x7b'] s && isSubstr ['\x7d', '\x7d'] s
      · rw [if_pos hg]
        exact replaceLoopCtx_no_occurrence ctx s h
      · rw [if_neg hg]
  · rfl

/-- C7 witness: a placeholder naming a key no step produced is left
literally untouched. -/
theorem claim_C7_witness :
    substitute_context_variables [("step_1_id".toList, .int 1001)]
      (.str "\x7b\x7bstep_9_id\x7d\x7d".toList) =
      .str "\x7b\x7bstep_9_id\x7d\x7d".toList := by
  apply claim_C7.1
  intro p hp
  have he : p = ("step_1_id".toList, Val.int 1001) := List.mem_singleton.mp hp
  rw [he]
  decide

/-- C9 counterexample: the claim says a Blocked run also hands a
summary to the reporting collaborator, but the blocked return of
`process` happens before `_post_results_comment`: the concrete vetoed
run produces no comment at all. -/
theorem claim_C9_counterexample :
    (processPlan "b".toList trId1001 respDelChecked).outcome =
      .blocked blockReason respDelChecked.safety_checks respDelChecked.plan ∧
    (processPlan "b".toList trId1001 respDelChecked).comment = none :=
  ⟨rfl, rfl⟩

/-- C9 (amended): when a run reaches Aborted or Completed (the loop
returns without an uncaught exception), the controller builds the
human-readable summary — containing each executed step's description
and success/failure marker, and the plan's `expected_outcome` when
present — and hands it to the reporting collaborator; a Blocked run
returns before the summary stage and hands over nothing. -/
theorem claim_C9 (baseUrl : List Char) (transport : Nat → TransportOutcome)
    (resp : AiResponse) :
    ((!resp.safety_checks.isEmpty && resp.plan.any stepIsDelete) = true →
      (processPlan baseUrl transport resp).comment = none) ∧
    (∀ results ctx calls,
      (!resp.safety_checks.isEmpty && resp.plan.any stepIsDelete) = false →
      runLoop baseUrl transport resp.plan [] [] [] = (results, ctx, calls, none) →
      (processPlan baseUrl transport resp).comment =
        some (buildResultsComment resp results) ∧
      (∀ r ∈ results,
        stepLine r <:+: buildResultsComment resp results ∧
        (r.description.getD "None".toList) <:+: stepLine r ∧
        (if r.success then "✅".toList else "❌".toList) <+: stepLine r) ∧
      (∀ e, resp.expected_outcome = some e → ¬e.isEmpty →
        ("\n**Expected Result:** ".toList ++ e) <:+:
          buildResultsComment resp results)) := by
  constructor
  · intro h
    unfold processPlan
    rw [if_pos h]
  · intro results ctx calls hgate hrun
    refine ⟨?_, ?_, ?_⟩
    · unfold processPlan
      rw [if_neg (by simp [hgate]), hrun]
    · intro r hr
      refine ⟨?_, ?_, ?_⟩
      · have h1 : stepLine r <:+: (results.map stepLine).flatten :=
          List.infix_of_mem_flatten (List.mem_map_of_mem _ hr)
        have h2 : (results.map stepLine).flatten <:+: buildResultsComment resp results := by
          refine ⟨"Admin request completed: ".toList ++
            natToChars (results.countP (·.success)) ++ '/' :: natToChars results.length ++
            " steps successful\n\n".toList ++
            "**Understanding:** ".toList ++ (resp.understanding.getD "N/A".toList) ++
            "\n\n".toList,
            (match resp.expected_outcome with
             | some e => if e.isEmpty then [] else "\n**Expected Result:** ".toList ++ e
             | none => []), ?_⟩
          simp [buildResultsComment, List.append_assoc]
        exact h1.trans h2
      · refine ⟨(if r.success then "✅".toList else "❌".toList) ++
          " Step ".toList ++ natToChars r.step ++ [':', ' '],
          '\n' :: (if r.success then []
            else "   Error: ".toList ++
              pyStr ((getItem r.result "error".toList).getD
                (.str "Unknown error".toList)) ++ ['\n']), ?_⟩
        simp [stepLine, List.append_assoc]
      · refine ⟨" Step ".toList ++ natToChars r.step ++ [':', ' '] ++
          (r.description.getD "None".toList) ++ ['\n'] ++
          (if r.success then []
           else "   Error: ".toList ++
             pyStr ((getItem r.result "error".toList).getD
               (.str "Unknown error".toList)) ++ ['\n']), ?_⟩
        simp [stepLine, List.append_assoc]
    · intro e he hne
      refine ⟨"Admin request completed: ".toList ++
        natToChars (results.countP (·.success)) ++ '/' :: natToChars results.length ++
        " steps successful\n\n".toList ++
        "**Understanding:** ".toList ++ (resp.understanding.getD "N/A".toList) ++
        "\n\n".toList ++ (results.map stepLine).flatten, [], ?_⟩
      simp [buildResultsComment, he, hne, List.append_assoc]

/-- C9 witness: a one-step run that completes hands a summary over. -/
theorem claim_C9_witness :
    (processPlan "b".toList trId1001 respOneGet).comment.isSome = true := by
  have h := (claim_C9 "b".toList trId1001 respOneGet).2
    (runLoop "b".toList trId1001 respOneGet.plan [] [] []).1
    (runLoop "b".toList trId1001 respOneGet.plan [] [] []).2.1
    (runLoop "b".toList trId1001 respOneGet.plan [] [] []).2.2.1
    rfl rfl
  rw [h.1]
  rfl

theorem replaceInFields_lookup : ∀ (ctx : Ctx) (l : Fields) (key : List Char),
    (replaceInFields ctx l).lookup key = (l.lookup key).map (replaceInValue ctx)
  | _, .nil, _ => rfl
  | ctx, .cons k v rest, key => by
    show Fields.lookup (.cons k (replaceInValue ctx v) (replaceInFields ctx rest)) key = _
    by_cases h : k = key
    · simp [Fields.lookup, h]
    · simp [Fields.lookup, h, replaceInFields_lookup ctx rest key]

theorem replaceInValue_plainStr (ctx : Ctx) (s : List Char)
    (h : (isSubstr ['\x7b', '\x7b'] s && isSubstr ['\x7d', '\x7d'] s) = false) :
    replaceInValue ctx (.str s) = .str s := by
  show (if isSubstr ['\x7b', '\x7b'] s && isSubstr ['\x7d', '\x7d'] s
    then replaceLoopCtx ctx s else .str s) = .str s
  rw [h]
  rfl

theorem countP_range_lt (m : Nat) : ∀ (n : Nat),
    (List.range n).countP (fun i => decide (i < m)) = min m n := by
  intro n
  induction n with
  | zero => simp
  | succ n ih =>
    rw [List.range_succ, List.countP_append, ih]
    by_cases h : n < m <;> simp [h] <;> omega

theorem substFields_plain_lookup (ctx : Ctx) (l : Fields) (key : List Char)
    (h : plainStrOpt (l.lookup key) = true) :
    (substFields ctx l).lookup key = l.lookup key := by
  unfold substFields
  by_cases hctx : ctx.isEmpty
  · rw [if_pos hctx]
  · rw [if_neg hctx, replaceInFields_lookup]
    rcases hv : l.lookup key with _ | v <;> rw [hv] at h
    · rfl
    · rcases v with str | n | b | _ | fl | el
      · show some (replaceInValue ctx (Val.str str)) = some (Val.str str)
        have hb : (isSubstr ['\x7b', '\x7b'] str && isSubstr ['\x7d', '\x7d'] str) = false := by
          cases hx : (isSubstr ['\x7b', '\x7b'] str && isSubstr ['\x7d', '\x7d'] str) with
          | false => rfl
          | true =>
            rw [show plainStrOpt (some (Val.str str)) =
              !(isSubstr ['\x7b', '\x7b'] str && isSubstr ['\x7d', '\x7d'] str) from rfl,
              hx] at h
            exact absurd h (by decide)
        rw [replaceInValue_plainStr ctx str hb]
      · exact Bool.noConfusion h
      · exact Bool.noConfusion h
      · exact Bool.noConfusion h
      · exact Bool.noConfusion h
      · exact Bool.noConfusion h

theorem stepExec_parts (baseUrl : List Char) (ctx : Ctx) (s : Step)
    (t : TransportOutcome) (hwf : stepWellFormed s = true) :
    ∃ m ep, stepExec baseUrl ctx s t = execute_api_call baseUrl (.str m) (.str ep)
      (((substFields ctx s.api_call).lookup "payload".toList).getD .null)
      (((substFields ctx s.api_call).lookup "params".toList).getD .null) t := by
  unfold stepWellFormed at hwf
  rw [Bool.and_eq_true] at hwf
  obtain ⟨h1, h2⟩ := hwf
  unfold stepExec
  rw [substFields_plain_lookup ctx s.api_call _ h1,
    substFields_plain_lookup ctx s.api_call _ h2]
  rcases hm : s.api_call.lookup "method".toList with _ | mv <;> rw [hm] at h1
  · rcases he : s.api_call.lookup "endpoint".toList with _ | ev <;> rw [he] at h2
    · exact ⟨"GET".toList, [], rfl⟩
    · rcases ev with es | n | b | _ | fl | el
      · exact ⟨"GET".toList, es, rfl⟩
      · exact Bool.noConfusion h2
      · exact Bool.noConfusion h2
      · exact Bool.noConfusion h2
      · exact Bool.noConfusion h2
      · exact Bool.noConfusion h2
  · rcases mv with ms | n | b | _ | fl | el
    · rcases he : s.api_call.lookup "endpoint".toList with _ | ev <;> rw [he] at h2
      · exact ⟨ms, [], rfl⟩
      · rcases ev with es | n | b | _ | fl | el
        · exact ⟨ms, es, rfl⟩
        · exact Bool.noConfusion h2
        · exact Bool.noConfusion h2
        · exact Bool.noConfusion h2
        · exact Bool.noConfusion h2
        · exact Bool.noConfusion h2
    · exact Bool.noConfusion h1
    · exact Bool.noConfusion h1
    · exact Bool.noConfusion h1
    · exact Bool.noConfusion h1
    · exact Bool.noConfusion h1

theorem stepExec_succD (baseUrl : List Char) (ctx : Ctx) (s : Step)
    (t : TransportOutcome) (hwf : stepWellFormed s = true)
    (hs : outcomeSucceedsDict t = true) :
    stepSuccess (stepExec baseUrl ctx s t).1 = true ∧
    (∃ bl, stepData (stepExec baseUrl ctx s t).1 = .dict bl) ∧
    stepData (stepExec baseUrl ctx s t).1 = outcomeBody t ∧
    ∃ call, (stepExec baseUrl ctx s t).2 = some call := by
  obtain ⟨m, ep, he⟩ := stepExec_parts baseUrl ctx s t hwf
  rcases t with r | e
  · unfold outcomeSucceedsDict at hs
    rw [Bool.and_eq_true] at hs
    obtain ⟨hs1, hs2⟩ := hs
    have hst : r.status_code < 400 := of_decide_eq_true hs1
    rw [he]
    refine ⟨?_, ?_, ?_, ⟨_, rfl⟩⟩
    · simp [execute_api_call, stepSuccess, getItem, Fields.lookup, truthy, hst]
    · rcases hd : responseData r with ds | n | b | _ | fl | el <;> rw [hd] at hs2
      · exact Bool.noConfusion hs2
      · exact Bool.noConfusion hs2
      · exact Bool.noConfusion hs2
      · exact Bool.noConfusion hs2
      · exact ⟨fl, by simp [execute_api_call, stepData, getItem, Fields.lookup, hd]⟩
      · exact Bool.noConfusion hs2
    · simp [execute_api_call, stepData, getItem, Fields.lookup, outcomeBody]
  · exact absurd hs (by simp [outcomeSucceedsDict])

theorem stepExec_fail (baseUrl : List Char) (ctx : Ctx) (s : Step)
    (t : TransportOutcome) (hwf : stepWellFormed s = true)
    (hf : outcomeFails t = true) :
    stepSuccess (stepExec baseUrl ctx s t).1 = false ∧
    ∃ call, (stepExec baseUrl ctx s t).2 = some call := by
  obtain ⟨m, ep, he⟩ := stepExec_parts baseUrl ctx s t hwf
  rw [he]
  rcases t with r | e
  · unfold outcomeFails at hf
    have hst : 400 ≤ r.status_code := of_decide_eq_true hf
    refine ⟨?_, ⟨_, rfl⟩⟩
    simp only [execute_api_call, stepSuccess, getItem, Fields.lookup]
    simp [truthy]
    omega
  · exact ⟨by simp [execute_api_call, stepSuccess, getItem, Fields.lookup, truthy], ⟨_, rfl⟩⟩

theorem runLoop_firstFail (baseUrl : List Char) (transport : Nat → TransportOutcome) :
    ∀ (steps : List Step) (k : Nat) (results : List StepResult) (ctx : Ctx)
      (calls : List ResolvedCall),
      1 ≤ k → k ≤ steps.length →
      (∀ s ∈ steps, stepWellFormed s = true) →
      (∀ i, i < k - 1 → outcomeSucceedsDict (transport (calls.length + i)) = true) →
      outcomeFails (transport (calls.length + (k - 1))) = true →
      ∃ res2 ctx2 calls2,
        runLoop baseUrl transport steps results ctx calls =
          (results ++ res2, ctx2, calls ++ calls2, none) ∧
        res2.length = k ∧ calls2.length = k ∧
        res2.map StepResult.description = (steps.take k).map Step.description ∧
        res2.map StepResult.success =
          (List.range k).map (fun i => decide (i < k - 1)) := by
  intro steps
  induction steps with
  | nil =>
    intro k results ctx calls hk1 hkN _ _ _
    simp at hkN
    omega
  | cons s rest ih =>
    intro k results ctx calls hk1 hkN hwf hsucc hfail
    have hwfs := hwf s (List.mem_cons_self ..)
    by_cases hk : k = 1
    · subst hk
      obtain ⟨hsF, call, hcall⟩ :=
        stepExec_fail baseUrl ctx s (transport calls.length) hwfs (by simpa using hfail)
      refine ⟨[⟨s.step.getD (results.length + 1), s.description, false,
        (stepExec baseUrl ctx s (transport calls.length)).1⟩], ctx, [call],
        ?_, rfl, rfl, ?_, ?_⟩
      · simp only [runLoop, hsF, hcall]
        simp
      · rfl
      · rfl
    · have hk2 : 2 ≤ k := by omega
      have hs0 := hsucc 0 (by omega)
      rw [Nat.add_zero] at hs0
      obtain ⟨hsT, ⟨bl, hbl⟩, _, call, hcall⟩ :=
        stepExec_succD baseUrl ctx s (transport calls.length) hwfs hs0
      have hunf : runLoop baseUrl transport (s :: rest) results ctx calls =
          runLoop baseUrl transport rest
            (results ++ [⟨s.step.getD (results.length + 1), s.description, true,
              (stepExec baseUrl ctx s (transport calls.length)).1⟩])
            (setKey
              (match bl.lookup "key".toList with
               | some v => setKey
                   (match bl.lookup "id".toList with
                    | some w => setKey ctx (ctxKey (s.step.getD (results.length + 1)) "id".toList) w
                    | none => ctx) (ctxKey (s.step.getD (results.length + 1)) "key".toList) v
               | none =>
                   match bl.lookup "id".toList with
                   | some w => setKey ctx (ctxKey (s.step.getD (results.length + 1)) "id".toList) w
                   | none => ctx)
              (ctxKey (s.step.getD (results.length + 1)) "result".toList) (.dict bl))
            (calls ++ [call]) := by
        simp only [runLoop, hsT, hcall, hbl, storeStep_dict_eq]
        simp
      obtain ⟨res2', ctx2, calls2', hrun', hlen', hclen', hdesc', hsm'⟩ :=
        ih (k - 1)
          (results ++ [⟨s.step.getD (results.length + 1), s.description, true,
            (stepExec baseUrl ctx s (transport calls.length)).1⟩])
          _ (calls ++ [call]) (by omega) (by simp at hkN; omega) 
          (fun q hq => hwf q (List.mem_cons_of_mem _ hq))
          (by
            intro i hi
            have := hsucc (i + 1) (by omega)
            rw [show calls.length + (i + 1) = (calls ++ [call]).length + i by
              simp; omega] at this
            exact this)
          (by
            have h' := hfail
            rw [show calls.length + (k - 1) = (calls ++ [call]).length + (k - 1 - 1) by
              simp; omega] at h'
            exact h')
      refine ⟨⟨s.step.getD (results.length + 1), s.description, true,
          (stepExec baseUrl ctx s (transport calls.length)).1⟩ :: res2', ctx2,
        call :: calls2', ?_, ?_, ?_, ?_, ?_⟩
      · rw [hunf, hrun']
        simp
      · simp [hlen']
        omega
      · simp [hclen']
        omega
      · rw [show k = (k - 1) + 1 by omega, List.take_succ_cons]
        simp only [List.map_cons, List.map_cons]
        rw [hdesc']
      · rw [show k = (k - 1) + 1 by omega, List.range_succ_eq_map]
        simp only [List.map_cons, List.map_map, Nat.add_sub_cancel]
        congr 1
        · symm
          simp only [decide_eq_true_eq]
          omega
        · rw [hsm']
          apply List.map_congr_left
          intro i hi
          rw [List.mem_range] at hi
          simp only [Function.comp]
          rw [decide_eq_decide]
          omega

/-- C2: for a plan whose first `k-1` transport outcomes succeed with
mapping bodies and whose `k`-th fails (raised exception or status 400+),
with well-formed steps (methods/endpoints that survive substitution as
strings) and the safety gate not firing, the run yields exactly `k`
step results — the first `k` plan steps in order, the first `k-1`
successful and the `k`-th failed — a completed-step count of `k-1`, and
exactly `k` requests performed: no request is made for any step after
the failing one.  (Indices here are 0-based: `transport i` is the
outcome of step `i+1`.) -/
theorem claim_C2 (baseUrl : List Char) (transport : Nat → TransportOutcome)
    (resp : AiResponse) (k : Nat)
    (hgate : (!resp.safety_checks.isEmpty && resp.plan.any stepIsDelete) = false)
    (hk1 : 1 ≤ k) (hkN : k ≤ resp.plan.length)
    (hwf : ∀ s ∈ resp.plan, stepWellFormed s = true)
    (hsucc : ∀ i, i < k - 1 → outcomeSucceedsDict (transport i) = true)
    (hfail : outcomeFails (transport (k - 1)) = true) :
    ∃ results calls,
      processPlan baseUrl transport resp =
        { outcome := .finished results (k - 1) resp.plan.length,
          stepCalls := calls,
          comment := some (buildResultsComment resp results) } ∧
      results.length = k ∧ calls.length = k ∧
      results.map StepResult.description = (resp.plan.take k).map Step.description ∧
      results.map StepResult.success =
        (List.range k).map (fun i => decide (i < k - 1)) := by
  obtain ⟨res2, ctx2, calls2, hrun, hlen, hclen, hdesc, hsm⟩ :=
    runLoop_firstFail baseUrl transport resp.plan k [] [] [] hk1 hkN hwf
      (by intro i hi; simpa using hsucc i hi) (by simpa using hfail)
  have hcount : res2.countP (·.success) = k - 1 := by
    have h1 : (res2.map StepResult.success).countP (fun b => b) =
        res2.countP (·.success) := List.countP_map ..
    rw [hsm] at h1
    rw [← h1]
    have h2 : ((List.range k).map (fun i => decide (i < k - 1))).countP (fun b => b) =
        (List.range k).countP (fun i => decide (i < k - 1)) := List.countP_map ..
    rw [h2, countP_range_lt]
    omega
  refine ⟨res2, calls2, ?_, hlen, hclen, hdesc, hsm⟩
  unfold processPlan
  rw [if_neg (by simp [hgate])]
  simp only [List.nil_append] at hrun
  rw [hrun]
  simp only [hcount]

/-- C2 witness: a two-step plan whose first request raises performs
exactly one request. -/
theorem claim_C2_witness :
    (processPlan "b".toList trRaise respTwoGets).stepCalls.length = 1 := by
  obtain ⟨results, calls, heq, hlen, hclen, _, _⟩ :=
    claim_C2 "b".toList trRaise respTwoGets 1 rfl (by decide) (by decide)
      (by decide) (fun i hi => absurd hi (Nat.not_lt_zero i)) rfl
  rw [heq]
  exact hclen

theorem storeStep_frame (ctx : Ctx) (n : Nat) (data : Val) (c : Ctx)
    (h : storeStep ctx n data = .ok c) (k' : List Char)
    (h1 : k' ≠ ctxKey n "id".toList) (h2 : k' ≠ ctxKey n "key".toList)
    (h3 : k' ≠ ctxKey n "result".toList) :
    lookupCtx c k' = lookupCtx ctx k' := by
  unfold storeStep at h
  rcases hpc : pyContains "id".toList data with e | hasId <;> rw [hpc] at h
  · exact Except.noConfusion h
  · by_cases hid : hasId = true
    all_goals rcases hpk : pyContains "key".toList data with e | hasK <;> rw [hpk] at h
    · exact (by
        subst hid
        rcases hps : pySubscript "id".toList data with e' | v <;> rw [hps] at h <;>
          simp only [if_true] at h
        · exact Except.noConfusion h
        · exact Except.noConfusion h)
    · subst hid
      rcases hps : pySubscript "id".toList data with e' | v <;> rw [hps] at h <;>
        simp only [if_true] at h
      · exact Except.noConfusion h
      · by_cases hk : hasK = true
        · subst hk
          rcases hps' : pySubscript "key".toList data with e'' | w <;> rw [hps'] at h <;>
            simp only [if_true] at h
          · exact Except.noConfusion h
          · have hc : c = setKey (setKey (setKey ctx (ctxKey n "id".toList) v)
                (ctxKey n "key".toList) w) (ctxKey n "result".toList) data :=
              (Except.ok.injEq .. ▸ h).symm
            rw [hc, lookupCtx_setKey_other _ _ _ _ h3, lookupCtx_setKey_other _ _ _ _ h2,
              lookupCtx_setKey_other _ _ _ _ h1]
        · rw [Bool.not_eq_true] at hk
          subst hk
          simp only [Bool.false_eq_true, if_false] at h
          have hc : c = setKey (setKey ctx (ctxKey n "id".toList) v)
              (ctxKey n "result".toList) data := (Except.ok.injEq .. ▸ h).symm
          rw [hc, lookupCtx_setKey_other _ _ _ _ h3, lookupCtx_setKey_other _ _ _ _ h1]
    · rw [Bool.not_eq_true] at hid
      subst hid
      simp only [Bool.false_eq_true, if_false] at h
      exact Except.noConfusion h
    · rw [Bool.not_eq_true] at hid
      subst hid
      simp only [Bool.false_eq_true, if_false] at h
      by_cases hk : hasK = true
      · subst hk
        rcases hps' : pySubscript "key".toList data with e'' | w <;> rw [hps'] at h <;>
          simp only [if_true] at h
        · exact Except.noConfusion h
        · have hc : c = setKey (setKey ctx (ctxKey n "key".toList) w)
            (ctxKey n "result".toList) data := (Except.ok.injEq .. ▸ h).symm
          rw [hc, lookupCtx_setKey_other _ _ _ _ h3, lookupCtx_setKey_other _ _ _ _ h2]
      · rw [Bool.not_eq_true] at hk
        subst hk
        simp only [Bool.false_eq_true, if_false] at h
        have hc : c = setKey ctx (ctxKey n "result".toList) data :=
          (Except.ok.injEq .. ▸ h).symm
        rw [hc, lookupCtx_setKey_other _ _ _ _ h3]

theorem runLoop_preserves (baseUrl : List Char) (transport : Nat → TransportOutcome) :
    ∀ (steps : List Step) (results : List StepResult) (ctx : Ctx)
      (calls : List ResolvedCall) (key : List Char) (v : Val),
      lookupCtx ctx key = some v →
      (∀ s ∈ steps, ∃ m, s.step = some m ∧
        key ≠ ctxKey m "id".toList ∧ key ≠ ctxKey m "key".toList ∧
        key ≠ ctxKey m "result".toList) →
      lookupCtx (runLoop baseUrl transport steps results ctx calls).2.1 key = some v := by
  intro steps
  induction steps with
  | nil => intro results ctx calls key v h _; exact h
  | cons s rest ih =>
    intro results ctx calls key v h hsteps
    obtain ⟨m, hm, hne1, hne2, hne3⟩ := hsteps s (List.mem_cons_self ..)
    simp only [runLoop]
    by_cases hsucc : stepSuccess (stepExec baseUrl ctx s (transport calls.length)).1
    · rw [if_pos hsucc]
      rcases hst : storeStep ctx (s.step.getD (results.length + 1))
          (stepData (stepExec baseUrl ctx s (transport calls.length)).1) with e | ctx'
      · exact h
      · have hnum : s.step.getD (results.length + 1) = m := by rw [hm]; rfl
        rw [hnum] at hst
        have hpres : lookupCtx ctx' key = some v := by
          rw [storeStep_frame ctx m _ ctx' hst key hne1 hne2 hne3]
          exact h
        exact ih _ ctx' _ key v hpres
          (fun q hq => hsteps q (List.mem_cons_of_mem _ hq))
    · rw [if_neg hsucc]
      exact h

/-- C5: context entries are monotonic.  (a) Any entry present in the
store survives the execution of any list of steps whose (present)
indices never generate that entry's key — in particular, with unique
ascending indices no later step can touch an earlier step's keys; the
loop never deletes and `setKey` is the only writer.  (b) Concretely for
the claim's instance: after step `n` succeeds with a mapping body, every
continuation of the run over later steps with indices above `n` leaves
`step_<n>_result` equal to exactly that step's response body. -/
theorem claim_C5 :
    (∀ (baseUrl : List Char) (transport : Nat → TransportOutcome)
      (steps : List Step) (results : List StepResult) (ctx : Ctx)
      (calls : List ResolvedCall) (key : List Char) (v : Val),
      lookupCtx ctx key = some v →
      (∀ s ∈ steps, ∃ m, s.step = some m ∧
        key ≠ ctxKey m "id".toList ∧ key ≠ ctxKey m "key".toList ∧
        key ≠ ctxKey m "result".toList) →
      lookupCtx (runLoop baseUrl transport steps results ctx calls).2.1 key = some v) ∧
    (∀ (baseUrl : List Char) (transport : Nat → TransportOutcome) (sk : Step)
      (post : List Step) (results : List StepResult) (ctx : Ctx)
      (calls : List ResolvedCall) (n : Nat),
      sk.step = some n →
      stepWellFormed sk = true →
      outcomeSucceedsDict (transport calls.length) = true →
      (∀ s ∈ post, ∃ m, s.step = some m ∧ n < m) →
      lookupCtx (runLoop baseUrl transport (sk :: post) results ctx calls).2.1
        (ctxKey n "result".toList) = some (outcomeBody (transport calls.length))) := by
  constructor
  · intro baseUrl transport steps results ctx calls key v h hsteps
    exact runLoop_preserves baseUrl transport steps results ctx calls key v h hsteps
  · intro baseUrl transport sk post results ctx calls n hstep hwf hs hpost
    obtain ⟨hsT, ⟨bl, hbl⟩, hbody, call, hcall⟩ :=
      stepExec_succD baseUrl ctx sk (transport calls.length) hwf hs
    simp only [runLoop]
    rw [if_pos hsT]
    have hnum : sk.step.getD (results.length + 1) = n := by rw [hstep]; rfl
    rw [hnum, hbl, storeStep_dict_eq]
    have hres : lookupCtx (setKey
        (match bl.lookup "key".toList with
         | some v => setKey
             (match bl.lookup "id".toList with
              | some w => setKey ctx (ctxKey n "id".toList) w
              | none => ctx) (ctxKey n "key".toList) v
         | none =>
             match bl.lookup "id".toList with
             | some w => setKey ctx (ctxKey n "id".toList) w
             | none => ctx)
        (ctxKey n "result".toList) (.dict bl)) (ctxKey n "result".toList) =
        some (.dict bl) := lookupCtx_setKey_same ..
    have hfin := runLoop_preserves baseUrl transport post
      (results ++ [⟨n, sk.description, stepSuccess (stepExec baseUrl ctx sk
        (transport calls.length)).1, (stepExec baseUrl ctx sk (transport calls.length)).1⟩])
      _ (calls ++ (stepExec baseUrl ctx sk (transport calls.length)).2.toList)
      (ctxKey n "result".toList) (.dict bl) hres
      (by
        intro q hq
        obtain ⟨m, hq1, hq2⟩ := hpost q hq
        refine ⟨m, hq1, ?_, ?_, ?_⟩
        · exact fun he => ctxKey_id_ne_result m n he.symm
        · exact fun he => ctxKey_key_ne_result m n he.symm
        · exact fun he => absurd (ctxKey_inj_num n m _ he) (by omega))
    rw [hfin]
    rw [← hbl, hbody]

/-- C5 witness: after step 1 of a concrete two-step run succeeds with
body `\x7b"id": 1001\x7d`, `step_1_result` still holds that exact body
after step 2 has executed. -/
theorem claim_C5_witness :
    lookupCtx (runLoop "b".toList trId1001 [getStep1, getStep2] [] [] []).2.1
      (ctxKey 1 "result".toList) = some (outcomeBody (trId1001 0)) := by
  apply claim_C5.2 "b".toList trId1001 getStep1 [getStep2] [] [] [] 1 rfl
    (by decide) (by decide)
  intro s hs
  rw [List.mem_singleton] at hs
  subst hs
  exact ⟨2, rfl, by decide⟩

theorem splitSubFuel_cons (p : List Char) : ∀ (fuel : Nat) (s : List Char),
    ∃ h t, splitSubFuel p fuel s = h :: t ∧ h <+: s := by
  intro fuel
  induction fuel with
  | zero =>
    intro s
    cases s with
    | nil => exact ⟨[], [], rfl, List.nil_prefix⟩
    | cons c rest => exact ⟨c :: rest, [], rfl, List.prefix_refl _⟩
  | succ fuel ih =>
    intro s
    cases s with
    | nil => exact ⟨[], [], rfl, List.nil_prefix⟩
    | cons c rest =>
      by_cases hg : 0 < p.length ∧ p.isPrefixOf (c :: rest)
      · exact ⟨[], splitSubFuel p fuel ((c :: rest).drop p.length),
          by simp only [splitSubFuel, if_pos hg], List.nil_prefix⟩
      · obtain ⟨h0, t0, heq, hpre⟩ := ih rest
        refine ⟨c :: h0, t0, ?_, ?_⟩
        · simp only [splitSubFuel, if_neg hg, heq]
        · exact (List.cons_prefix_cons).mpr ⟨rfl, hpre⟩

theorem joinWith_cons₂ (sep x y : List Char) (t : List (List Char)) :
    joinWith sep (x :: y :: t) = x ++ sep ++ joinWith sep (y :: t) := rfl

theorem replaceSubFuel_eq_joinWith (p r : List Char) : ∀ (fuel : Nat) (s : List Char),
    s.length ≤ fuel →
    replaceSubFuel p r fuel s = joinWith r (splitSubFuel p fuel s) := by
  intro fuel
  induction fuel with
  | zero =>
    intro s hs
    have : s = [] := List.eq_nil_of_length_eq_zero (by omega)
    subst this
    rfl
  | succ fuel ih =>
    intro s hs
    cases s with
    | nil => rfl
    | cons c rest =>
      by_cases hg : 0 < p.length ∧ p.isPrefixOf (c :: rest)
      · simp only [replaceSubFuel, splitSubFuel, if_pos hg]
        obtain ⟨h0, t0, heq, _⟩ := splitSubFuel_cons p fuel ((c :: rest).drop p.length)
        rw [heq, joinWith_cons₂]
        rw [ih _ (by
          have h1 := hg.1
          simp only [List.length_drop, List.length_cons]
          simp only [List.length_cons] at hs
          omega), heq]
        simp [List.append_assoc]
      · simp only [replaceSubFuel, splitSubFuel, if_neg hg]
        obtain ⟨h0, t0, heq, _⟩ := splitSubFuel_cons p fuel rest
        rw [heq]
        rw [ih rest (by simp at hs; omega), heq]
        cases t0 with
        | nil => rfl
        | cons y t1 => rw [joinWith_cons₂, joinWith_cons₂]; simp

theorem joinWith_splitSubFuel (p : List Char) : ∀ (fuel : Nat) (s : List Char),
    s.length ≤ fuel →
    joinWith p (splitSubFuel p fuel s) = s := by
  intro fuel
  induction fuel with
  | zero =>
    intro s hs
    have : s = [] := List.eq_nil_of_length_eq_zero (by omega)
    subst this
    rfl
  | succ fuel ih =>
    intro s hs
    cases s with
    | nil => rfl
    | cons c rest =>
      by_cases hg : 0 < p.length ∧ p.isPrefixOf (c :: rest)
      · simp only [splitSubFuel, if_pos hg]
        obtain ⟨h0, t0, heq, _⟩ := splitSubFuel_cons p fuel ((c :: rest).drop p.length)
        rw [heq, joinWith_cons₂, ← heq,
          ih _ (by
            have h1 := hg.1
            simp only [List.length_drop, List.length_cons]
            simp only [List.length_cons] at hs
            omega)]
        obtain ⟨u, hu⟩ := (List.isPrefixOf_iff_prefix).mp hg.2
        conv_rhs => rw [← hu]
        rw [← hu, List.drop_left]
        simp
      · simp only [splitSubFuel, if_neg hg]
        obtain ⟨h0, t0, heq, _⟩ := splitSubFuel_cons p fuel rest
        rw [heq]
        have hrest := ih rest (by simp at hs; omega)
        rw [heq] at hrest
        cases t0 with
        | nil => simp only [joinWith] at hrest ⊢; rw [hrest]
        | cons y t1 =>
          rw [joinWith_cons₂] at hrest ⊢
          simp only [List.cons_append]
          rw [hrest]

theorem isSubstr_nil_of_ne (p : List Char) (hp : p ≠ []) : isSubstr p [] = false := by
  cases p with
  | nil => exact absurd rfl hp
  | cons c q => rfl

theorem splitSubFuel_no_occurrence (p : List Char) (hp : p ≠ []) :
    ∀ (fuel : Nat) (s : List Char), s.length ≤ fuel →
    ∀ part ∈ splitSubFuel p fuel s, isSubstr p part = false := by
  intro fuel
  induction fuel with
  | zero =>
    intro s hs part hm
    have : s = [] := List.eq_nil_of_length_eq_zero (by omega)
    subst this
    rw [List.mem_singleton.mp hm]
    exact isSubstr_nil_of_ne p hp
  | succ fuel ih =>
    intro s hs part hm
    cases s with
    | nil =>
      rw [List.mem_singleton.mp hm]
      exact isSubstr_nil_of_ne p hp
    | cons c rest =>
      by_cases hg : 0 < p.length ∧ p.isPrefixOf (c :: rest)
      · simp only [splitSubFuel, if_pos hg] at hm
        rcases List.mem_cons.mp hm with he | hm'
        · rw [he]
          exact isSubstr_nil_of_ne p hp
        · exact ih _ (by
            have h1 := hg.1
            simp only [List.length_drop, List.length_cons]
            simp only [List.length_cons] at hs
            omega) part hm'
      · simp only [splitSubFuel, if_neg hg] at hm
        obtain ⟨h0, t0, heq, hpre⟩ := splitSubFuel_cons p fuel rest
        rw [heq] at hm
        have hrest : ∀ q ∈ splitSubFuel p fuel rest, isSubstr p q = false :=
          ih rest (by simp at hs; omega)
        rcases List.mem_cons.mp hm with he | hm'
        · rw [he]
          rw [isSubstr_false_iff]
          intro u t hut
          have hinf : p <:+: c :: h0 := ⟨u, t, hut⟩
          rcases List.infix_cons_iff.mp hinf with hpre' | hinf'
          · have hch : c :: h0 <+: c :: rest := (List.cons_prefix_cons).mpr ⟨rfl, hpre⟩
            have : p <+: c :: rest := hpre'.trans hch
            exact hg ⟨by cases p with | nil => exact absurd rfl hp | cons _ _ => simp,
              List.isPrefixOf_iff_prefix.mpr this⟩
          · have := hrest h0 (heq ▸ List.mem_cons_self ..)
            rw [isSubstr_false_iff] at this
            obtain ⟨u', t', hut'⟩ := hinf'
            exact this u' t' hut'
        · exact hrest part (heq ▸ List.mem_cons_of_mem _ hm')

theorem replaceSub_eq_joinWith (p r s : List Char) :
    replaceSub p r s = joinWith r (splitSub p s) :=
  replaceSubFuel_eq_joinWith p r s.length s (Nat.le_refl _)

theorem joinWith_splitSub (p s : List Char) :
    joinWith p (splitSub p s) = s :=
  joinWith_splitSubFuel p s.length s (Nat.le_refl _)

theorem splitSub_no_occurrence (p s : List Char) (hp : p ≠ []) :
    ∀ part ∈ splitSub p s, isSubstr p part = false :=
  splitSubFuel_no_occurrence p hp s.length s (Nat.le_refl _)

theorem pyStrip_decomp (s : List Char) :
    ∃ w1 w2, s = w1 ++ pyStrip s ++ w2 ∧
      (∀ c ∈ w1, pySpace c = true) ∧ (∀ c ∈ w2, pySpace c = true) := by
  refine ⟨s.takeWhile pySpace,
    ((s.dropWhile pySpace).reverse.takeWhile pySpace).reverse, ?_, ?_, ?_⟩
  · have h2 : s.dropWhile pySpace =
        ((s.dropWhile pySpace).reverse.dropWhile pySpace).reverse ++
        ((s.dropWhile pySpace).reverse.takeWhile pySpace).reverse := by
      have h3 : (s.dropWhile pySpace).reverse =
          (s.dropWhile pySpace).reverse.takeWhile pySpace ++
          (s.dropWhile pySpace).reverse.dropWhile pySpace :=
        (List.takeWhile_append_dropWhile pySpace _).symm
      calc s.dropWhile pySpace
          = (s.dropWhile pySpace).reverse.reverse := (List.reverse_reverse _).symm
        _ = ((s.dropWhile pySpace).reverse.takeWhile pySpace ++
              (s.dropWhile pySpace).reverse.dropWhile pySpace).reverse := by rw [← h3]
        _ = _ := by rw [List.reverse_append]
    show s = _ ++ pyStrip s ++ _
    unfold pyStrip
    rw [List.append_assoc, ← h2, List.takeWhile_append_dropWhile]
  · intro c hc
    exact List.mem_takeWhile_imp hc
  · intro c hc
    rw [List.mem_reverse] at hc
    exact List.mem_takeWhile_imp hc

theorem keyNoBraces_not_mem (k : List Char) (h : keyNoBraces k = true) :
    '\x7b' ∉ k ∧ '\x7d' ∉ k := by
  unfold keyNoBraces at h
  rw [Bool.and_eq_true] at h
  constructor
  · intro hm
    have hx : k.contains '\x7b' = true := List.elem_eq_true_of_mem hm
    rw [hx] at h
    exact Bool.noConfusion h.1
  · intro hm
    have hx : k.contains '\x7d' = true := List.elem_eq_true_of_mem hm
    rw [hx] at h
    exact Bool.noConfusion h.2

theorem placeholder_tail_eq : ∀ (b k t1 t2 : List Char),
    '\x7d' ∉ b → '\x7d' ∉ k →
    b ++ '\x7d' :: '\x7d' :: t1 = k ++ '\x7d' :: '\x7d' :: t2 → b = k := by
  intro b
  induction b with
  | nil =>
    intro k t1 t2 _ hk h
    cases k with
    | nil => rfl
    | cons c k' =>
      rw [List.nil_append, List.cons_append] at h
      injection h with h1 _
      exact absurd (by rw [h1]; exact List.mem_cons_self ..) hk
  | cons c b' ih =>
    intro k t1 t2 hb hk h
    cases k with
    | nil =>
      rw [List.nil_append, List.cons_append] at h
      injection h with h1 _
      exact absurd (by rw [← h1]; exact List.mem_cons_self ..) hb
    | cons d k' =>
      rw [List.cons_append, List.cons_append] at h
      injection h with h1 h2
      rw [h1, ih k' t1 t2 (fun hm => hb (List.mem_cons_of_mem _ hm))
        (fun hm => hk (List.mem_cons_of_mem _ hm)) h2]

theorem no_foreign_placeholder : ∀ (w1 b k w2 u t : List Char),
    keyNoBraces b = true → keyNoBraces k = true →
    (∀ c ∈ w1, pySpace c = true) → (∀ c ∈ w2, pySpace c = true) →
    b ≠ k →
    u ++ placeholderOf b ++ t ≠ w1 ++ placeholderOf k ++ w2 := by
  intro w1
  induction w1 with
  | nil =>
    intro b k w2 u t hb hk _ hw2 hne heq
    obtain ⟨hbL, hbR⟩ := keyNoBraces_not_mem b hb
    obtain ⟨hkL, hkR⟩ := keyNoBraces_not_mem k hk
    simp only [placeholderOf, List.nil_append, List.cons_append, List.append_assoc,
      List.singleton_append] at heq
    cases u with
    | nil =>
      simp only [List.nil_append] at heq
      injection heq with h1 h2
      injection h2 with h3 h4
      exact hne (placeholder_tail_eq b k t w2 hbR hkR h4)
    | cons c u' =>
      rw [List.cons_append] at heq
      injection heq with h1 h2
      cases u' with
      | nil =>
        simp only [List.nil_append] at h2
        injection h2 with h3 h4
        cases k with
        | nil =>
          rw [List.nil_append] at h4
          injection h4 with h5 _
          exact absurd h5 (by decide)
        | cons d k' =>
          rw [List.cons_append] at h4
          injection h4 with h5 _
          exact absurd (by rw [h5]; exact List.mem_cons_self ..) hkL
      | cons c' u'' =>
        rw [List.cons_append] at h2
        injection h2 with h3 h4
        have hmem : '\x7b' ∈ u'' ++ '\x7b' :: '\x7b' :: (b ++ '\x7d' :: '\x7d' :: t) := by
          apply List.mem_append_right
          exact List.mem_cons_self ..
        rw [h4] at hmem
        rcases List.mem_append.mp hmem with hmk | hmw
        · exact absurd hmk hkL
        · rcases List.mem_cons.mp hmw with he | hmw'
          · exact absurd he (by decide)
          · rcases List.mem_cons.mp hmw' with he | hmw''
            · exact absurd he (by decide)
            · have := hw2 _ hmw''
              exact absurd this (by decide)
  | cons c w1' ih =>
    intro b k w2 u t hb hk hw1 hw2 hne heq
    rw [List.cons_append] at heq
    cases u with
    | nil =>
      simp only [placeholderOf, List.nil_append] at heq
      injection heq with h1 _
      have := hw1 c (List.mem_cons_self ..)
      rw [← h1] at this
      exact absurd this (by decide)
    | cons c' u' =>
      rw [List.cons_append, List.cons_append] at heq
      injection heq with h1 h2
      exact ih b k w2 u' t hb hk (fun q hq => hw1 q (List.mem_cons_of_mem _ hq))
        hw2 hne (by simpa [List.append_assoc] using h2)

theorem lookupCtx_some_key : ∀ (ctx : Ctx) (k : List Char) (v : Val),
    lookupCtx ctx k = some v → ∃ p ∈ ctx, p.1 = k := by
  intro ctx
  induction ctx with
  | nil => intro k v h; exact Option.noConfusion h
  | cons p rest ih =>
    intro k v h
    simp only [lookupCtx] at h
    by_cases hp : p.1 = k
    · exact ⟨p, List.mem_cons_self .., hp⟩
    · rw [if_neg hp] at h
      obtain ⟨q, hq, hqe⟩ := ih k v h
      exact ⟨q, List.mem_cons_of_mem _ hq, hqe⟩

theorem placeholder_infix_of_strip (s kk : List Char) (h : pyStrip s = placeholderOf kk) :
    placeholderOf kk <:+: s := by
  obtain ⟨w1, w2, hdecomp, _, _⟩ := pyStrip_decomp s
  rw [h] at hdecomp
  exact ⟨w1, w2, hdecomp.symm⟩

theorem braces_guard_of_ph (s kk : List Char) (h : placeholderOf kk <:+: s) :
    (isSubstr ['\x7b', '\x7b'] s && isSubstr ['\x7d', '\x7d'] s) = true := by
  rw [Bool.and_eq_true, isSubstr_infix_iff, isSubstr_infix_iff]
  constructor
  · refine List.IsInfix.trans ?_ h
    exact ⟨[], kk ++ ['\x7d', '\x7d'], by simp [placeholderOf]⟩
  · refine List.IsInfix.trans ?_ h
    exact ⟨'\x7b' :: '\x7b' :: kk, [], by simp [placeholderOf]⟩

theorem replaceLoopCtx_exact : ∀ (ctx : Ctx) (s kk : List Char) (v : Val),
    (∀ p ∈ ctx, keyNoBraces p.1 = true) →
    lookupCtx ctx kk = some v →
    pyStrip s = placeholderOf kk →
    replaceLoopCtx ctx s = v := by
  intro ctx
  induction ctx with
  | nil => intro s kk v _ h _; exact Option.noConfusion h
  | cons p rest ih =>
    intro s kk v hctx hlk hstrip
    rcases p with ⟨b, cv⟩
    obtain ⟨w1, w2, hdecomp, hw1, hw2⟩ := pyStrip_decomp s
    rw [hstrip] at hdecomp
    by_cases hbk : b = kk
    · subst hbk
      have hv : cv = v := by
        simp only [lookupCtx, if_pos] at hlk
        exact Option.some.injEq .. ▸ hlk
      have hocc : isSubstr (placeholderOf b) s = true := by
        rw [hdecomp]
        exact isSubstr_of_decomp ..
      show replaceLoopCtx ((b, cv) :: rest) s = v
      simp only [replaceLoopCtx, hocc, if_true, hstrip, if_pos]
      exact hv
    · have hkk : keyNoBraces kk = true := by
        have hlk' : lookupCtx rest kk = some v := by
          simp only [lookupCtx, if_neg hbk] at hlk
          exact hlk
        obtain ⟨q, hq, hqe⟩ := lookupCtx_some_key rest kk v hlk'
        rw [← hqe]
        exact hctx q (List.mem_cons_of_mem _ hq)
      have hocc : isSubstr (placeholderOf b) s = false := by
        rw [hdecomp, isSubstr_false_iff]
        intro u t
        exact no_foreign_placeholder w1 b kk w2 u t
          (hctx (b, cv) (List.mem_cons_self ..)) hkk hw1 hw2 hbk
      show replaceLoopCtx ((b, cv) :: rest) s = v
      simp only [replaceLoopCtx, hocc, Bool.false_eq_true, if_false]
      apply ih s kk v (fun q hq => hctx q (List.mem_cons_of_mem _ hq)) ?_ hstrip
      simp only [lookupCtx, if_neg hbk] at hlk
      exact hlk

theorem replaceInFields_keys : ∀ (ctx : Ctx) (l : Fields),
    (replaceInFields ctx l).keys = l.keys
  | _, .nil => rfl
  | ctx, .cons k v rest => by
    show Fields.keys (.cons k (replaceInValue ctx v) (replaceInFields ctx rest)) = _
    simp only [Fields.keys]
    rw [replaceInFields_keys ctx rest]

theorem replaceInFields_size : ∀ (ctx : Ctx) (l : Fields),
    (replaceInFields ctx l).size = l.size
  | _, .nil => rfl
  | ctx, .cons k v rest => by
    show Fields.size (.cons k (replaceInValue ctx v) (replaceInFields ctx rest)) = _
    simp only [Fields.size]
    rw [replaceInFields_size ctx rest]

theorem replaceInElems_size : ∀ (ctx : Ctx) (l : Elems),
    (replaceInElems ctx l).size = l.size
  | _, .nil => rfl
  | ctx, .cons v rest => by
    show Elems.size (.cons (replaceInValue ctx v) (replaceInElems ctx rest)) = _
    simp only [Elems.size]
    rw [replaceInElems_size ctx rest]

theorem replaceLoopCtxL_ids : ∀ (ctx : LCtx) (s : List Char) (i : Nat),
    i ∈ mutIds (replaceLoopCtxL ctx s) → ∃ p ∈ ctx, i ∈ mutIds p.2 := by
  intro ctx
  induction ctx with
  | nil => intro s i h; exact absurd h (List.not_mem_nil i)
  | cons p rest ih =>
    intro s i h
    rcases p with ⟨k, cv⟩
    simp only [replaceLoopCtxL] at h
    by_cases h1 : isSubstr (placeholderOf k) s
    · rw [if_pos h1] at h
      by_cases h2 : pyStrip s = placeholderOf k
      · rw [if_pos h2] at h
        exact ⟨(k, cv), List.mem_cons_self .., h⟩
      · rw [if_neg h2] at h
        obtain ⟨q, hq, hqi⟩ := ih _ i h
        exact ⟨q, List.mem_cons_of_mem _ hq, hqi⟩
    · rw [if_neg h1] at h
      obtain ⟨q, hq, hqi⟩ := ih _ i h
      exact ⟨q, List.mem_cons_of_mem _ hq, hqi⟩

mutual
theorem replaceInValueL_ids : ∀ (ctx : LCtx) (v : LVal) (c : Nat),
    c ≤ (replaceInValueL ctx v c).2 ∧
    ∀ i ∈ mutIds (replaceInValueL ctx v c).1,
      (∃ p ∈ ctx, i ∈ mutIds p.2) ∨ c ≤ i
  | ctx, .str s, c => by
    refine ⟨Nat.le_refl _, ?_⟩
    intro i h
    by_cases h1 : isSubstr ['\x7b', '\x7b'] s && isSubstr ['\x7d', '\x7d'] s
    · simp only [replaceInValueL, h1, if_true] at h
      exact Or.inl (replaceLoopCtxL_ids ctx s i h)
    · simp only [replaceInValueL, h1, Bool.false_eq_true, if_false] at h
      exact absurd h (List.not_mem_nil i)
  | ctx, .int n, c => ⟨Nat.le_refl _, fun i h => absurd h (List.not_mem_nil i)⟩
  | ctx, .bool b, c => ⟨Nat.le_refl _, fun i h => absurd h (List.not_mem_nil i)⟩
  | ctx, .null, c => ⟨Nat.le_refl _, fun i h => absurd h (List.not_mem_nil i)⟩
  | ctx, .dict id l, c => by
    have hf := replaceInFieldsL_ids ctx l c
    refine ⟨Nat.le_succ_of_le hf.1, ?_⟩
    intro i h
    have h' : i ∈ (replaceInFieldsL ctx l c).2 ::
        mutIdsFields (replaceInFieldsL ctx l c).1 := h
    rcases List.mem_cons.mp h' with he | hm
    · exact Or.inr (by rw [he]; exact hf.1)
    · exact hf.2 i hm
  | ctx, .list id l, c => by
    have hf := replaceInElemsL_ids ctx l c
    refine ⟨Nat.le_succ_of_le hf.1, ?_⟩
    intro i h
    have h' : i ∈ (replaceInElemsL ctx l c).2 ::
        mutIdsElems (replaceInElemsL ctx l c).1 := h
    rcases List.mem_cons.mp h' with he | hm
    · exact Or.inr (by rw [he]; exact hf.1)
    · exact hf.2 i hm
theorem replaceInFieldsL_ids : ∀ (ctx : LCtx) (l : LFields) (c : Nat),
    c ≤ (replaceInFieldsL ctx l c).2 ∧
    ∀ i ∈ mutIdsFields (replaceInFieldsL ctx l c).1,
      (∃ p ∈ ctx, i ∈ mutIds p.2) ∨ c ≤ i
  | ctx, .nil, c => ⟨Nat.le_refl _, fun i h => absurd h (List.not_mem_nil i)⟩
  | ctx, .cons k v rest, c => by
    have hv := replaceInValueL_ids ctx v c
    have hr := replaceInFieldsL_ids ctx rest (replaceInValueL ctx v c).2
    refine ⟨Nat.le_trans hv.1 hr.1, ?_⟩
    intro i h
    simp only [replaceInFieldsL, mutIdsFields] at h
    rcases List.mem_append.mp h with h1 | h2
    · exact hv.2 i h1
    · rcases hr.2 i h2 with hc | hc
      · exact Or.inl hc
      · exact Or.inr (Nat.le_trans hv.1 hc)
theorem replaceInElemsL_ids : ∀ (ctx : LCtx) (l : LElems) (c : Nat),
    c ≤ (replaceInElemsL ctx l c).2 ∧
    ∀ i ∈ mutIdsElems (replaceInElemsL ctx l c).1,
      (∃ p ∈ ctx, i ∈ mutIds p.2) ∨ c ≤ i
  | ctx, .nil, c => ⟨Nat.le_refl _, fun i h => absurd h (List.not_mem_nil i)⟩
  | ctx, .cons v rest, c => by
    have hv := replaceInValueL_ids ctx v c
    have hr := replaceInElemsL_ids ctx rest (replaceInValueL ctx v c).2
    refine ⟨Nat.le_trans hv.1 hr.1, ?_⟩
    intro i h
    simp only [replaceInElemsL, mutIdsElems] at h
    rcases List.mem_append.mp h with h1 | h2
    · exact hv.2 i h1
    · rcases hr.2 i h2 with hc | hc
      · exact Or.inl hc
      · exact Or.inr (Nat.le_trans hv.1 hc)
end

mutual
theorem relabelL_counter : ∀ (v : LVal) (c : Nat), c ≤ (relabelL v c).2
  | .str _, _c => Nat.le_refl _
  | .int _, _c => Nat.le_refl _
  | .bool _, _c => Nat.le_refl _
  | .null, _c => Nat.le_refl _
  | .dict _ l, c => Nat.le_succ_of_le (relabelLFields_counter l c)
  | .list _ l, c => Nat.le_succ_of_le (relabelLElems_counter l c)
theorem relabelLFields_counter : ∀ (l : LFields) (c : Nat), c ≤ (relabelLFields l c).2
  | .nil, _c => Nat.le_refl _
  | .cons _ v rest, c =>
    Nat.le_trans (relabelL_counter v c) (relabelLFields_counter rest (relabelL v c).2)
theorem relabelLElems_counter : ∀ (l : LElems) (c : Nat), c ≤ (relabelLElems l c).2
  | .nil, _c => Nat.le_refl _
  | .cons v rest, c =>
    Nat.le_trans (relabelL_counter v c) (relabelLElems_counter rest (relabelL v c).2)
end

/-- C8 counterexample: with an empty context store the engine returns
the input object itself (the early `if not context: return api_call`),
so the output shares the input's mutable dict node (identity 7) — it is
not a deep copy and not free of shared mutable parts, contradicting the
claim's "for every context store (including the empty one)". -/
theorem claim_C8_counterexample :
    substitute_context_variables_L [] (.dict 7 .nil) 100 = .dict 7 .nil ∧
    mutIds (substitute_context_variables_L [] (.dict 7 .nil) 100) = [7] ∧
    mutIds (.dict 7 (.nil : LFields)) = [7] :=
  ⟨rfl, rfl, rfl⟩

/-- C8 (amended): with a non-empty context store the engine returns a
structure sharing no mutable node with the input (given a fresh
allocator counter and context values that do not alias the input), and
being a pure function of its input it leaves the input unchanged; with
an empty context store it instead returns the input object itself,
unmodified but fully shared. -/
theorem claim_C8 :
    (∀ (v : LVal) (c : Nat), substitute_context_variables_L [] v c = v) ∧
    (∀ (p : List Char × LVal) (ps : LCtx) (v : LVal) (c : Nat),
      (∀ i ∈ mutIds v, i < c) →
      (∀ q ∈ p :: ps, ∀ i ∈ mutIds q.2, i ∉ mutIds v) →
      ((mutIds (substitute_context_variables_L (p :: ps) v c)).all
        (fun i => !(mutIds v).contains i)) = true) := by
  constructor
  · intro v c
    rfl
  · intro p ps v c hfresh hdisj
    rw [List.all_eq_true]
    intro i hi
    have hout : i ∈ mutIds (substitute_context_variables_L (p :: ps) v c) := hi
    unfold substitute_context_variables_L at hout
    rw [if_neg (by simp)] at hout
    have hids := (replaceInValueL_ids (p :: ps) (relabelL v c).1 (relabelL v c).2).2 i hout
    have hnm : i ∉ mutIds v := by
      rcases hids with ⟨q, hq, hqi⟩ | hc
      · exact hdisj q hq i hqi
      · intro hm
        have := hfresh i hm
        have := relabelL_counter v c
        omega
    cases hb : (mutIds v).contains i with
    | false => rfl
    | true => exact absurd (List.mem_of_elem_eq_true hb) hnm

/-- C8 witness: substituting a one-entry context into a labelled dict
with identity 7 and a fresh counter yields a structure disjoint from the
input's mutable nodes. -/
theorem claim_C8_witness :
    ((mutIds (substitute_context_variables_L [("k".toList, .int 1)]
      (.dict 7 .nil) 100)).all
      (fun i => !(mutIds (.dict 7 (.nil : LFields))).contains i)) = true := by
  apply claim_C8.2 ("k".toList, .int 1) [] (.dict 7 .nil) 100
  · decide
  · decide

theorem replaceLoopCtx_skip : ∀ (pre rest : Ctx) (s : List Char),
    (∀ p ∈ pre, isSubstr (placeholderOf p.1) s = false) →
    replaceLoopCtx (pre ++ rest) s = replaceLoopCtx rest s := by
  intro pre
  induction pre with
  | nil => intro rest s _; rfl
  | cons p tail ih =>
    intro rest s h
    rcases p with ⟨k, cv⟩
    have hk := h (k, cv) (List.mem_cons_self ..)
    show replaceLoopCtx ((k, cv) :: (tail ++ rest)) s = _
    simp only [replaceLoopCtx, hk, Bool.false_eq_true, if_false]
    exact ih rest s (fun q hq => h q (List.mem_cons_of_mem _ hq))

/-- C3 counterexample: replacement cascades through later store entries,
so the embedded-placeholder promise fails for some stores.  With the
store `step_1_result ↦ "\x7b\x7bstep_2_id\x7d\x7d"`, `step_2_id ↦ 7`
the input string `x\x7b\x7bstep_1_result\x7d\x7dy` comes back as
`x7y`: after `\x7b\x7bstep_1_result\x7d\x7d` is replaced by the string
form of its context value, the later entry substitutes into the spliced
text as well.  The claim requires the string form with the surrounding
text intact — `x\x7b\x7bstep_2_id\x7d\x7dy` (third conjunct) — which
differs (second conjunct). -/
theorem claim_C3_counterexample :
    substitute_context_variables
      [("step_1_result".toList, .str "\x7b\x7bstep_2_id\x7d\x7d".toList),
       ("step_2_id".toList, .int 7)]
      (.str "x\x7b\x7bstep_1_result\x7d\x7dy".toList) = .str "x7y".toList ∧
    "x7y".toList ≠ "x\x7b\x7bstep_2_id\x7d\x7dy".toList ∧
    joinWith (pyStr (Val.str "\x7b\x7bstep_2_id\x7d\x7d".toList))
        (splitSub (placeholderOf "step_1_result".toList)
          "x\x7b\x7bstep_1_result\x7d\x7dy".toList) =
      "x\x7b\x7bstep_2_id\x7d\x7dy".toList :=
  ⟨rfl, by decide, rfl⟩

/-- C3 (amended): placeholder resolution.  (a) A string that strips to
exactly one placeholder naming a key of the context store (keys contain
no braces, as all real `step_<n>_...` keys do) resolves to that key's
raw context value, type preserved.  (b) For any store split as
`pre ++ (k, v) :: rest` where no entry of `pre` has its placeholder in
the string and the placeholder of `k` is embedded in it: the engine
replaces every non-overlapping occurrence of that placeholder by the
`str` form of `v` keeping the surrounding text intact — the intermediate
result is the `str`-join of the split of the string at the placeholder,
that split reassembles to the original string, and no segment of it
contains the placeholder — and then the remaining entries `rest` are
applied in order to the substituted string; when none of their
placeholders occur in it, the final result is exactly that substituted
string (otherwise they substitute into it as well — cascading, see the
counterexample).  (c) Mappings keep their keys and size, sequences
their length. -/
theorem claim_C3 :
    (∀ (ctx : Ctx) (s kk : List Char) (v : Val),
      (∀ p ∈ ctx, keyNoBraces p.1 = true) →
      lookupCtx ctx kk = some v →
      pyStrip s = placeholderOf kk →
      substitute_context_variables ctx (.str s) = v) ∧
    (∀ (pre : Ctx) (k : List Char) (v : Val) (rest : Ctx) (s : List Char),
      (∀ q ∈ pre, isSubstr (placeholderOf q.1) s = false) →
      isSubstr (placeholderOf k) s = true →
      pyStrip s ≠ placeholderOf k →
      substitute_context_variables (pre ++ (k, v) :: rest) (.str s) =
        replaceLoopCtx rest (joinWith (pyStr v) (splitSub (placeholderOf k) s)) ∧
      joinWith (placeholderOf k) (splitSub (placeholderOf k) s) = s ∧
      (∀ part ∈ splitSub (placeholderOf k) s,
        isSubstr (placeholderOf k) part = false) ∧
      ((∀ q ∈ rest, isSubstr (placeholderOf q.1)
          (joinWith (pyStr v) (splitSub (placeholderOf k) s)) = false) →
        substitute_context_variables (pre ++ (k, v) :: rest) (.str s) =
          .str (joinWith (pyStr v) (splitSub (placeholderOf k) s)))) ∧
    (∀ (ctx : Ctx) (l : Fields) (es : Elems),
      (∃ l2, substitute_context_variables ctx (.dict l) = .dict l2 ∧
        l2.keys = l.keys ∧ l2.size = l.size) ∧
      (∃ es2, substitute_context_variables ctx (.list es) = .list es2 ∧
        es2.size = es.size)) := by
  refine ⟨?_, ?_, ?_⟩
  · intro ctx s kk v hctx hlk hstrip
    cases ctx with
    | nil => exact Option.noConfusion hlk
    | cons p rest =>
      show substitute_context_variables (p :: rest) (.str s) = v
      unfold substitute_context_variables
      rw [if_neg (by simp)]
      have hguard := braces_guard_of_ph s kk (placeholder_infix_of_strip s kk hstrip)
      show (if isSubstr ['\x7b', '\x7b'] s && isSubstr ['\x7d', '\x7d'] s
        then replaceLoopCtx (p :: rest) s else .str s) = v
      rw [hguard, if_pos rfl]
      exact replaceLoopCtx_exact (p :: rest) s kk v hctx hlk hstrip
  · intro pre k v rest s hpre hocc hne
    have hinfix : placeholderOf k <:+: s := (isSubstr_infix_iff _ _).mp hocc
    have hguard := braces_guard_of_ph s k hinfix
    have hstep : substitute_context_variables (pre ++ (k, v) :: rest) (.str s) =
        replaceLoopCtx rest (joinWith (pyStr v) (splitSub (placeholderOf k) s)) := by
      unfold substitute_context_variables
      rw [if_neg (by simp)]
      show (if isSubstr ['\x7b', '\x7b'] s && isSubstr ['\x7d', '\x7d'] s
        then replaceLoopCtx (pre ++ (k, v) :: rest) s else .str s) = _
      rw [hguard, if_pos rfl, replaceLoopCtx_skip pre _ s hpre]
      show (if isSubstr (placeholderOf k) s = true
        then if pyStrip s = placeholderOf k then v
          else replaceLoopCtx rest (replaceSub (placeholderOf k) (pyStr v) s)
        else replaceLoopCtx rest s) = _
      rw [if_pos hocc, if_neg hne, replaceSub_eq_joinWith]
    refine ⟨hstep, joinWith_splitSub ..,
      splitSub_no_occurrence _ _ (by simp [placeholderOf]), ?_⟩
    intro hrest
    rw [hstep]
    exact replaceLoopCtx_no_occurrence rest _ hrest
  · intro ctx l es
    constructor
    · by_cases hctx : ctx.isEmpty
      · exact ⟨l, by unfold substitute_context_variables; rw [if_pos hctx], rfl, rfl⟩
      · refine ⟨replaceInFields ctx l, ?_, replaceInFields_keys ctx l,
          replaceInFields_size ctx l⟩
        unfold substitute_context_variables
        rw [if_neg hctx]
        rfl
    · by_cases hctx : ctx.isEmpty
      · exact ⟨es, by unfold substitute_context_variables; rw [if_pos hctx], rfl⟩
      · refine ⟨replaceInElems ctx es, ?_, replaceInElems_size ctx es⟩
        unfold substitute_context_variables
        rw [if_neg hctx]
        rfl

/-- C3 witness: with `step_1_id ↦ 1001` in the context, the exact
placeholder resolves to the raw integer `1001`; and in a three-entry
store (`step_1_key` before it, `step_1_result` after it, neither
occurring in the string) the embedded `field/.../sub` resolves to the
string `field/1001/sub`. -/
theorem claim_C3_witness :
    substitute_context_variables [("step_1_id".toList, .int 1001)]
      (.str "\x7b\x7bstep_1_id\x7d\x7d".toList) = .int 1001 ∧
    substitute_context_variables
      [("step_1_key".toList, .str "K".toList),
       ("step_1_id".toList, .int 1001),
       ("step_1_result".toList, .dict (.cons "id".toList (.int 1001) .nil))]
      (.str "field/\x7b\x7bstep_1_id\x7d\x7d/sub".toList) =
      .str "field/1001/sub".toList := by
  constructor
  · exact claim_C3.1 [("step_1_id".toList, .int 1001)]
      "\x7b\x7bstep_1_id\x7d\x7d".toList "step_1_id".toList (.int 1001)
      (by decide) rfl (by decide)
  · have h := claim_C3.2.1 [("step_1_key".toList, Val.str "K".toList)]
      "step_1_id".toList (Val.int 1001)
      [("step_1_result".toList, Val.dict (.cons "id".toList (.int 1001) .nil))]
      "field/\x7b\x7bstep_1_id\x7d\x7d/sub".toList
      (by decide) (by decide) (by decide)
    exact (h.2.2.2 (by decide)).trans rfl
